import Mathlib

/-!
# godoctor: `cli/protocol/xrun.go`

A shallow embedding of the `xrun` command handler of the Go Doctor protocol
(`XRun.Validate` and `XRun.Run`) and theorems about it.

Conventions of the embedding.

* A Go `interface{}` value is a `Value`; the nil interface is `Value.null`.
  A map index `m[k]` is `List.lookup`, so an absent key is `none`.
* A failed type assertion `v.(T)` and a nil dereference are run-time panics.
  Every function that can panic returns `Except Panic _`; `Except.error` is
  the panic, `Except.ok` a normal return.
* A Go `error` is carried as the text of `err.Error()`; `Option String` is an
  `error` that may be nil.
* The packages `refactoring`, `text`, `filesystem`, `os` and `path/filepath`
  are not part of this file. What `xrun.go` calls in them is a field of `Env`.
* `Run` returns, next to its result, the list of calls it made to these
  packages, in order (`Event`).
* The receiver and `state` are non-nil pointers. The receiver is used only
  for the struct tag of its field `Mode`.
-/

set_option linter.dupNamespace false

namespace protocol

/-! ## Values -/

/-- A finite `float64`, denoting `mant * 2 ^ exp`. -/
structure Float64 where
  mant : Int
  exp : Int
  deriving DecidableEq, Repr

/-- Go's conversion `int(f)` of a `float64`: the fractional part is discarded
(truncation towards zero). -/
def Float64.toInt (f : Float64) : Int :=
  if 0 ≤ f.exp then f.mant * 2 ^ f.exp.toNat else Int.tdiv f.mant (2 ^ (-f.exp).toNat)

/-- A dynamically typed Go value (`interface{}`), as `encoding/json` decodes
one, together with `int`, which `XRun.Validate` asserts for `limit`. -/
inductive Value where
  | null
  | bool (b : Bool)
  | int (n : Int)
  | float (f : Float64)
  | str (s : String)
  | list (xs : List Value)
  | map (kvs : List (String × Value))

/-- The request: `map[string]interface{}`. -/
abbrev Input := List (String × Value)

/-- Run-time panics. -/
inductive Panic where
  | typeAssertion
  | nilDereference
  deriving DecidableEq, Repr

/-- `v.(string)` applied to the result of a map index. -/
def assertString : Option Value → Except Panic String
  | some (Value.str s) => Except.ok s
  | _ => Except.error Panic.typeAssertion

/-- `v.(int)` applied to the result of a map index. -/
def assertInt : Option Value → Except Panic Int
  | some (Value.int n) => Except.ok n
  | _ => Except.error Panic.typeAssertion

/-- `v.(float64)` applied to the result of a map index. -/
def assertFloat64 : Option Value → Except Panic Float64
  | some (Value.float f) => Except.ok f
  | _ => Except.error Panic.typeAssertion

/-- `v.(map[string]interface{})` applied to the result of a map index. -/
def assertMap : Option Value → Except Panic (List (String × Value))
  | some (Value.map kvs) => Except.ok kvs
  | _ => Except.error Panic.typeAssertion

/-- `v.([]interface{})` applied to the result of a map index. -/
def assertSlice : Option Value → Except Panic (List Value)
  | some (Value.list xs) => Except.ok xs
  | _ => Except.error Panic.typeAssertion

/-! ## The collaborators -/

/-- The session's file system handle (`filesystem.FileSystem`). -/
abbrev FileSystem := Nat

/-- The session state, `State`: readiness level, working directory, file system. -/
structure State where
  State : Int
  Dir : String
  Filesystem : FileSystem

/-- `text.TextSelection`. -/
structure TextSelection where
  Filename : String
  StartLine : Int
  StartCol : Int
  EndLine : Int
  EndCol : Int

/-- `refactoring.Config`; `Scope` is always nil here. -/
structure Config where
  FileSystem : FileSystem
  Scope : Option (List String)
  Selection : TextSelection
  Args : List Value

/-- `refactoring.Severity`. -/
inductive Severity where
  | INFO
  | WARNING
  | ERROR
  | FATAL_ERROR
  deriving DecidableEq, Repr

/-- One entry of `result.Log.Entries`. -/
structure Entry where
  Severity : Severity
  Message : String

/-- A `text.EditSet`, used only through `Env.CreatePatchForFile` and
`Env.ApplyToFile`. -/
abbrev EditSet := Nat

/-- A `*text.Patch`, used only as the argument of `Patch.Write`. -/
abbrev Patch := Nat

/-- The three implementations of `filesystem.FSChange`. -/
inductive FSChange where
  | FSCreateFile (Path Contents : String)
  | FSRemove (Path : String)
  | FSRename (Path NewName : String)

/-- `refactoring.Result`: the log, the edits in the order in which the
`range` over the map `result.Edits` yields them, and the file system
changes. -/
structure Result where
  Log : List Entry
  Edits : List (String × EditSet)
  FSChanges : List FSChange

/-- A `refactoring.Refactoring`: `Description().Name` and `Run`. -/
structure Refactoring where
  Name : String
  Run : Config → Result

/-- What `xrun.go` uses of the other packages. -/
structure Env where
  /-- `refactoring.AllRefactorings()`, as short name and refactoring. -/
  AllRefactorings : List (String × Refactoring)
  /-- `filepath.Join` of two elements. -/
  filepathJoin : String → String → String
  /-- `text.CreatePatchForFile`: a patch, or the text of the error. -/
  CreatePatchForFile : EditSet → String → Except String Patch
  /-- `text.ApplyToFile`: the edited content, or the text of the error. -/
  ApplyToFile : EditSet → String → Except String String
  /-- Whether `os.Create` of this name succeeds. -/
  osCreate : String → Bool

/-- `refactoring.GetRefactoring`: the map entry, nil if there is none. -/
def GetRefactoring (env : Env) (shortName : String) : Option Refactoring :=
  env.AllRefactorings.lookup shortName

/-- The calls `Run` makes to the collaborators. -/
inductive Event where
  | getRefactoring (shortName : String)
  | engineRun (shortName : String) (config : Config)
  | createPatchForFile (e : EditSet) (f : String)
  | osCreate (name : String)
  | patchWrite (p : Patch) (f : String) (sink : Option String)
  | fileClose (name : String)
  | applyToFile (e : EditSet) (f : String)

/-! ## Regular expressions

The only pattern compiled is the `chk` tag of the field `Mode`, an
alternation of literals. `MatchString` reports whether the string
*contains* a match of the pattern. -/

/-- Split a pattern at each `|`. -/
def splitAlternatives : List Char → List (List Char)
  | [] => [[]]
  | c :: cs =>
    match splitAlternatives cs with
    | [] => [[c]]
    | a :: as => if c = '|' then [] :: a :: as else (c :: a) :: as

/-- `regexp.MustCompile` for a pattern that is an alternation of literals:
the list of the alternatives. -/
def regexpMustCompile (pattern : String) : List (List Char) :=
  splitAlternatives pattern.data

/-- Whether `lit` occurs in `s` starting at some position. -/
def occursIn (lit : List Char) : List Char → Bool
  | [] => lit.isPrefixOf []
  | c :: cs => lit.isPrefixOf (c :: cs) || occursIn lit cs

/-- `(*Regexp).MatchString`: some alternative occurs somewhere in `s`. -/
def MatchString (re : List (List Char)) (s : String) : Bool :=
  re.any (fun lit => occursIn lit s.data)

/-- The struct tag `chk` of the field `Mode` of `XRun`. -/
def XRun.modeChkTag : String := "text|patch"

/-- `strings.Join`. -/
def stringsJoin (elems : List String) (sep : String) : String :=
  sep.intercalate elems

/-- The reply, `Reply`: a `map[string]interface{}`, keys in the order of the
composite literal that builds it. -/
abbrev Reply := List (String × Value)

/-- What a call of `Run` does: the calls to the collaborators, then a panic
or the returned pair of reply and error. -/
structure Outcome where
  calls : List Event
  result : Except Panic (Reply × Option String)

namespace XRun

/-! ## `XRun.Validate` -/

/-- Lines 135-139: the loop over the short names of
`refactoring.AllRefactorings()`, from the current value of `valid`. -/
def transformationLoop (input : Input) : List String → Bool → Except Panic Bool
  | [], valid => Except.ok valid
  | shortName :: rest, valid =>
    match assertString (input.lookup "transformation") with
    | Except.error p => Except.error p
    | Except.ok t => transformationLoop input rest (if shortName = t then true else valid)

/-- Lines 145-149: whether the `limit` check fails. -/
def limitInvalid (input : Input) : Except Panic Bool :=
  match input.lookup "limit" with
  | none => Except.ok false
  | some limit =>
    match assertInt (some limit) with
    | Except.error p => Except.error p
    | Except.ok n => Except.ok (decide (n < 0))

/-- Lines 152-159: whether the `mode` check fails. -/
def modeInvalid (input : Input) : Except Panic Bool :=
  match input.lookup "mode" with
  | none => Except.ok false
  | some mode =>
    let qualityValidator := regexpMustCompile modeChkTag
    match assertString (some mode) with
    | Except.error p => Except.error p
    | Except.ok m => Except.ok (!(MatchString qualityValidator m))

/-- `XRun.Validate`, lines 128-163. -/
def Validate (env : Env) (state : State) (input : Input) :
    Except Panic (Bool × Option String) :=
  if state.State < 2 then
    Except.ok (false, some "State of 2 (file system configured) is required")
  else
    match transformationLoop input (env.AllRefactorings.map Prod.fst) false with
    | Except.error p => Except.error p
    | Except.ok valid =>
      if !valid then
        Except.ok (false, some "Transformation given is not a valid refactoring name")
      else
        match limitInvalid input with
        | Except.error p => Except.error p
        | Except.ok true => Except.ok (false, some "\"limit\" key must be a positive integer")
        | Except.ok false =>
          match modeInvalid input with
          | Except.error p => Except.error p
          | Except.ok true => Except.ok (false, some "\"mode\" key must be \"text|patch\"")
          | Except.ok false => Except.ok (true, none)

/-! ## `XRun.Run` -/

/-- Lines 31-38: the text selection. -/
def textSelectionOf (env : Env) (state : State) (input : Input) :
    Except Panic TextSelection :=
  match assertMap (input.lookup "textselection") with
  | Except.error p => Except.error p
  | Except.ok textselection =>
    match assertString (textselection.lookup "filename") with
    | Except.error p => Except.error p
    | Except.ok filename =>
      match assertFloat64 (textselection.lookup "startline") with
      | Except.error p => Except.error p
      | Except.ok startline =>
        match assertFloat64 (textselection.lookup "startcol") with
        | Except.error p => Except.error p
        | Except.ok startcol =>
          match assertFloat64 (textselection.lookup "endline") with
          | Except.error p => Except.error p
          | Except.ok endline =>
            match assertFloat64 (textselection.lookup "endcol") with
            | Except.error p => Except.error p
            | Except.ok endcol =>
              Except.ok ⟨env.filepathJoin state.Dir filename, startline.toInt,
                startcol.toInt, endline.toInt, endcol.toInt⟩

/-- Lines 58-68: the switch on the severity, giving `severity` and the new
value of `fatalError`. -/
def severitySwitch (s : Severity) (fatalError : Bool) : String × Bool :=
  match s with
  | Severity.INFO => ("", fatalError)
  | Severity.WARNING => ("warning", fatalError)
  | Severity.ERROR => ("error", fatalError)
  | Severity.FATAL_ERROR => ("fatal", true)

/-- Lines 56-71: the loop over the log entries, from the current values of
`logs` and `fatalError`. -/
def logLoop : List Entry → List Value → Bool → List Value × Bool
  | [], logs, fatalError => (logs, fatalError)
  | entry :: rest, logs, fatalError =>
    let sw := severitySwitch entry.Severity fatalError
    let log := Value.map [("severity", Value.str sw.1), ("message", Value.str entry.Message)]
    logLoop rest (logs ++ [log]) sw.2

/-- What an encoding loop gives: the calls made, then a panic, the text of
the error it returns with, or the final `changes`. -/
structure Encoded where
  calls : List Event
  result : Except Panic (Except String (List Value))

/-- Lines 81-94: the loop over the edits in patch mode, from the current
value of `changes` and the calls made so far. -/
def patchLoop (env : Env) : List (String × EditSet) → List Value → List Event → Encoded
  | [], changes, calls => ⟨calls, Except.ok (Except.ok changes)⟩
  | (f, e) :: rest, changes, calls =>
    match env.CreatePatchForFile e f with
    | Except.error err =>
      ⟨calls ++ [Event.createPatchForFile e f], Except.ok (Except.error err)⟩
    | Except.ok p =>
      let name := stringsJoin [f, ".diff"] ""
      if env.osCreate name then
        patchLoop env rest
          (changes ++ [Value.map [("filename", Value.str f), ("patchFile", Value.str name)]])
          (calls ++ [Event.createPatchForFile e f, Event.osCreate name,
            Event.patchWrite p f (some name), Event.fileClose name])
      else
        -- diffFile is nil: p.Write gets the nil file, diffFile.Name() dereferences it
        ⟨calls ++ [Event.createPatchForFile e f, Event.osCreate name,
            Event.patchWrite p f none], Except.error Panic.nilDereference⟩

/-- Lines 96-102: the loop over the edits in text mode. -/
def textLoop (env : Env) : List (String × EditSet) → List Value → List Event → Encoded
  | [], changes, calls => ⟨calls, Except.ok (Except.ok changes)⟩
  | (f, e) :: rest, changes, calls =>
    match env.ApplyToFile e f with
    | Except.error err =>
      ⟨calls ++ [Event.applyToFile e f], Except.ok (Except.error err)⟩
    | Except.ok content =>
      textLoop env rest
        (changes ++ [Value.map [("filename", Value.str f), ("content", Value.str content)]])
        (calls ++ [Event.applyToFile e f])

/-- Line 80: the condition `!found || mode.(string) == "patch"`. -/
def patchMode (input : Input) : Except Panic Bool :=
  match input.lookup "mode" with
  | none => Except.ok true
  | some mode =>
    match assertString (some mode) with
    | Except.error p => Except.error p
    | Except.ok m => Except.ok (decide (m = "patch"))

/-- Lines 110-117: the type switch on one file system change. -/
def fsChangeSwitch : FSChange → Value
  | FSChange.FSCreateFile path contents =>
    Value.map [("change", Value.str "create"), ("file", Value.str path),
      ("content", Value.str contents)]
  | FSChange.FSRemove path =>
    Value.map [("change", Value.str "delete"), ("path", Value.str path)]
  | FSChange.FSRename path newName =>
    Value.map [("change", Value.str "rename"), ("from", Value.str path),
      ("to", Value.str newName)]

/-- Lines 109-118: the loop assigning `fschanges[i]`, from index `i`. -/
def fsLoop : List FSChange → Nat → List Value → List Value
  | [], _, fschanges => fschanges
  | change :: rest, i, fschanges => fsLoop rest (i + 1) (fschanges.set i (fsChangeSwitch change))

/-- Lines 77-124: what `Run` does once the log has no fatal entry. -/
def encodeChanges (env : Env) (input : Input) (refac : Refactoring) (result : Result)
    (logs : List Value) (calls : List Event) : Outcome :=
  match patchMode input with
  | Except.error p => ⟨calls, Except.error p⟩
  | Except.ok patch =>
    let enc := if patch then patchLoop env result.Edits [] calls
      else textLoop env result.Edits [] calls
    match enc.result with
    | Except.error p => ⟨enc.calls, Except.error p⟩
    | Except.ok (Except.error err) =>
      ⟨enc.calls, Except.ok ([("reply", Value.str "Error"), ("message", Value.str err)], some err)⟩
    | Except.ok (Except.ok changes) =>
      if 0 < result.FSChanges.length then
        let fschanges :=
          fsLoop result.FSChanges 0 (List.replicate result.FSChanges.length (Value.map []))
        ⟨enc.calls, Except.ok ([("reply", Value.str "OK"), ("description", Value.str refac.Name),
          ("log", Value.list logs), ("files", Value.list changes),
          ("fsChanges", Value.list fschanges)], none)⟩
      else
        ⟨enc.calls, Except.ok ([("reply", Value.str "OK"), ("description", Value.str refac.Name),
          ("log", Value.list logs), ("files", Value.list changes)], none)⟩

/-- `XRun.Run`, lines 26-125. -/
def Run (env : Env) (state : State) (input : Input) : Outcome :=
  match Validate env state input with
  | Except.error p => ⟨[], Except.error p⟩
  | Except.ok (false, none) => ⟨[], Except.error Panic.nilDereference⟩
  | Except.ok (false, some err) =>
    ⟨[], Except.ok ([("reply", Value.str "Error"), ("message", Value.str err)], some err)⟩
  | Except.ok (true, _) =>
    match textSelectionOf env state input with
    | Except.error p => ⟨[], Except.error p⟩
    | Except.ok ts =>
      match assertString (input.lookup "transformation") with
      | Except.error p => ⟨[], Except.error p⟩
      | Except.ok shortName =>
        match assertSlice (input.lookup "arguments") with
        | Except.error p => ⟨[Event.getRefactoring shortName], Except.error p⟩
        | Except.ok args =>
          match GetRefactoring env shortName with
          | none => ⟨[Event.getRefactoring shortName], Except.error Panic.nilDereference⟩
          | some refac =>
            let config : Config := ⟨state.Filesystem, none, ts, args⟩
            let result := refac.Run config
            let calls := [Event.getRefactoring shortName, Event.engineRun shortName config]
            let logged := logLoop result.Log [] false
            if logged.2 then
              ⟨calls, Except.ok ([("reply", Value.str "OK"),
                ("description", Value.str refac.Name), ("log", Value.list logged.1)], none)⟩
            else
              encodeChanges env input refac result logged.1 calls

end XRun

/-- Every call the encoding loop makes for `edits` succeeds: in patch mode
`text.CreatePatchForFile` and `os.Create` of the diff file, in text mode
`text.ApplyToFile`. -/
def encodingSucceeds (env : Env) (patch : Bool) (edits : List (String × EditSet)) : Bool :=
  edits.all fun fe =>
    if patch then
      match env.CreatePatchForFile fe.2 fe.1 with
      | Except.ok _ => env.osCreate (fe.1 ++ ".diff")
      | Except.error _ => false
    else
      match env.ApplyToFile fe.2 fe.1 with
      | Except.ok _ => true
      | Except.error _ => false

/-- The wire record of one log entry: its severity string and its message. -/
def logRecord (severity message : String) : Value :=
  Value.map [("severity", Value.str severity), ("message", Value.str message)]

/-! ## Concrete sessions and requests -/

/-- A refactoring named `Rename` whose run gives `result`. -/
def exRefactoring (result : Result) : Refactoring := ⟨"Rename", fun _ => result⟩

/-- An environment registering one refactoring, `rename`; every encoder call
succeeds, and `os.Create` succeeds when `create` is true. -/
def exEnv (result : Result) (create : Bool) : Env :=
  ⟨[("rename", exRefactoring result)], fun d f => d ++ "/" ++ f,
   fun e _ => Except.ok e, fun _ f => Except.ok f, fun _ => create⟩

/-- A session with the file system configured (state 2). -/
def exState : State := ⟨2, "/src", 0⟩

/-- A session before the file system is configured (state 1). -/
def exStateEarly : State := ⟨1, "/src", 0⟩

/-- A text selection as `encoding/json` decodes it. -/
def exSelection : Value :=
  Value.map [("filename", Value.str "foo.go"), ("startline", Value.float ⟨1, 0⟩),
    ("startcol", Value.float ⟨1, 0⟩), ("endline", Value.float ⟨1, 0⟩),
    ("endcol", Value.float ⟨5, 0⟩)]

/-- The selection `exSelection` resolved in the session `exState`. -/
def exTextSelection : TextSelection := ⟨"/src/foo.go", 1, 1, 1, 5⟩

/-- A request for the transformation `shortName`, with further keys `extra`. -/
def exRequest (shortName : String) (extra : Input) : Input :=
  [("transformation", Value.str shortName), ("textselection", exSelection),
   ("arguments", Value.list [])] ++ extra

/-- The configuration `Run` builds for `exRequest` in `exState`. -/
def exConfig : Config := ⟨0, none, exTextSelection, []⟩

/-- An engine result with one edit, no log entry and no file system change. -/
def exEditResult : Result := ⟨[], [("foo.go", 7)], []⟩

/-- An engine result whose log has a fatal entry after an informational one,
with one edit and one file system change. -/
def exFatalResult : Result :=
  ⟨[⟨Severity.INFO, "checking"⟩, ⟨Severity.FATAL_ERROR, "cannot rename"⟩],
   [("foo.go", 7)], [FSChange.FSRemove "old.go"]⟩

/-- An engine result without a fatal entry, with one edit and three file
system changes. -/
def exFSResult : Result :=
  ⟨[⟨Severity.WARNING, "moved"⟩], [("foo.go", 7)],
   [FSChange.FSCreateFile "new.go" "package p", FSChange.FSRemove "old.go",
    FSChange.FSRename "a.go" "b.go"]⟩

/-- An engine result with one informational log entry and one edit. -/
def exInfoResult : Result := ⟨[⟨Severity.INFO, "renamed"⟩], [("foo.go", 7)], []⟩

/-- An engine result with edits for two files, the second being `bad.go`. -/
def exTwoEditsResult : Result := ⟨[], [("foo.go", 7), ("bad.go", 8)], []⟩

/-- An environment like `exEnv result true`, except that both encoders fail
for the file `bad.go`. -/
def exEnvFailing (result : Result) : Env :=
  ⟨[("rename", exRefactoring result)], fun d f => d ++ "/" ++ f,
   fun e f => if f = "bad.go" then Except.error "cannot read bad.go" else Except.ok e,
   fun _ f => if f = "bad.go" then Except.error "cannot read bad.go" else Except.ok f,
   fun _ => true⟩

/-- The reply of `Run` for the engine result `exFatalResult`. -/
def exFatalReply : Reply :=
  [("reply", Value.str "OK"), ("description", Value.str "Rename"),
   ("log", Value.list [logRecord "" "checking", logRecord "fatal" "cannot rename"])]

/-- The reply of `Run` in the session `exStateEarly`. -/
def exStateErrorReply : Reply :=
  [("reply", Value.str "Error"),
   ("message", Value.str "State of 2 (file system configured) is required")]

end protocol

/-! # Theorems -/

namespace protocol

open XRun

/-! ## Lemmas on `Validate` -/

theorem transformationLoop_of_str (input : Input) (t : String)
    (h : input.lookup "transformation" = some (Value.str t)) (names : List String)
    (valid : Bool) :
    transformationLoop input names valid = Except.ok (valid || decide (t ∈ names)) := by
  induction names generalizing valid with
  | nil => simp [transformationLoop]
  | cons n rest ih =>
    simp only [transformationLoop, h, assertString]
    rw [ih]
    by_cases hn : n = t
    · simp [hn]
    · have hn2 : ¬ t = n := fun e => hn e.symm
      simp [hn, hn2]

theorem lookup_isSome_of_mem_keys {β : Type} (t : String) (l : List (String × β))
    (h : t ∈ l.map Prod.fst) : ∃ r, l.lookup t = some r := by
  induction l with
  | nil => simp at h
  | cons kv rest ih =>
    obtain ⟨k, v⟩ := kv
    by_cases hk : t = k
    · exact ⟨v, by simp [List.lookup, hk]⟩
    · have hmem : t ∈ rest.map Prod.fst := by
        simp only [List.map_cons, List.mem_cons] at h
        rcases h with h | h
        · exact absurd h hk
        · exact h
      obtain ⟨r, hr⟩ := ih hmem
      refine ⟨r, ?_⟩
      have hbeq : (t == k) = false := by simpa using hk
      simp [List.lookup, hbeq, hr]

theorem Validate_not_ready (env : Env) (state : State) (input : Input)
    (h : state.State < 2) :
    Validate env state input =
      Except.ok (false, some "State of 2 (file system configured) is required") := by
  simp [Validate, h]

theorem Validate_unregistered (env : Env) (state : State) (input : Input) (t : String)
    (hready : 2 ≤ state.State)
    (ht : input.lookup "transformation" = some (Value.str t))
    (hreg : t ∉ env.AllRefactorings.map Prod.fst) :
    Validate env state input =
      Except.ok (false, some "Transformation given is not a valid refactoring name") := by
  have h2 : ¬ state.State < 2 := not_lt.mpr hready
  have hd : decide (t ∈ env.AllRefactorings.map Prod.fst) = false := by simpa using hreg
  simp only [Validate, h2, if_false, transformationLoop_of_str input t ht, hd]
  simp

theorem Validate_registered (env : Env) (state : State) (input : Input) (t : String)
    (hready : 2 ≤ state.State)
    (ht : input.lookup "transformation" = some (Value.str t))
    (hreg : t ∈ env.AllRefactorings.map Prod.fst) :
    Validate env state input =
      match limitInvalid input with
      | Except.error p => Except.error p
      | Except.ok true => Except.ok (false, some "\"limit\" key must be a positive integer")
      | Except.ok false =>
        match modeInvalid input with
        | Except.error p => Except.error p
        | Except.ok true => Except.ok (false, some "\"mode\" key must be \"text|patch\"")
        | Except.ok false => Except.ok (true, none) := by
  have h2 : ¬ state.State < 2 := not_lt.mpr hready
  have hd : decide (t ∈ env.AllRefactorings.map Prod.fst) = true := by simpa using hreg
  simp only [Validate, h2, if_false, transformationLoop_of_str input t ht, hd]
  simp

theorem limitInvalid_absent (input : Input) (h : input.lookup "limit" = none) :
    limitInvalid input = Except.ok false := by
  simp [limitInvalid, h]

theorem limitInvalid_int (input : Input) (n : Int)
    (h : input.lookup "limit" = some (Value.int n)) :
    limitInvalid input = Except.ok (decide (n < 0)) := by
  simp [limitInvalid, h, assertInt]

theorem modeInvalid_absent (input : Input) (h : input.lookup "mode" = none) :
    modeInvalid input = Except.ok false := by
  simp [modeInvalid, h]

theorem modeInvalid_str (input : Input) (m : String)
    (h : input.lookup "mode" = some (Value.str m)) :
    modeInvalid input =
      Except.ok (!(MatchString [['t', 'e', 'x', 't'], ['p', 'a', 't', 'c', 'h']] m)) := by
  have hc : regexpMustCompile modeChkTag =
      [['t', 'e', 'x', 't'], ['p', 'a', 't', 'c', 'h']] := by decide
  simp [modeInvalid, h, assertString, hc]

theorem occursIn_iff_infix (lit s : List Char) : occursIn lit s = true ↔ lit <:+: s := by
  induction s with
  | nil =>
    simp only [occursIn, List.isPrefixOf_iff_prefix, List.prefix_nil, List.infix_nil]
  | cons c cs ih =>
    simp only [occursIn, Bool.or_eq_true, List.isPrefixOf_iff_prefix, ih, List.infix_cons_iff]

/-- The check of the `mode` key passes exactly for the strings that contain
`text` or `patch`. -/
theorem MatchString_modeChkTag (m : String) :
    MatchString (regexpMustCompile modeChkTag) m = true ↔
      ("text".data <:+: m.data ∨ "patch".data <:+: m.data) := by
  have hc : regexpMustCompile modeChkTag =
      [['t', 'e', 'x', 't'], ['p', 'a', 't', 'c', 'h']] := by decide
  rw [hc]
  simp only [MatchString, List.any_cons, List.any_nil, Bool.or_false, Bool.or_eq_true,
    occursIn_iff_infix]

/-! ## Lemmas on `Run` -/

theorem Run_of_invalid (env : Env) (state : State) (input : Input) (err : String)
    (h : Validate env state input = Except.ok (false, some err)) :
    Run env state input =
      ⟨[], Except.ok ([("reply", Value.str "Error"), ("message", Value.str err)], some err)⟩ := by
  simp [Run, h]

theorem Run_of_valid (env : Env) (state : State) (input : Input) (ts : TextSelection)
    (shortName : String) (args : List Value) (refac : Refactoring)
    (hv : Validate env state input = Except.ok (true, none))
    (hts : textSelectionOf env state input = Except.ok ts)
    (hname : input.lookup "transformation" = some (Value.str shortName))
    (hargs : input.lookup "arguments" = some (Value.list args))
    (hrefac : GetRefactoring env shortName = some refac) :
    Run env state input =
      if (logLoop (refac.Run ⟨state.Filesystem, none, ts, args⟩).Log [] false).2 then
        ⟨[Event.getRefactoring shortName,
            Event.engineRun shortName ⟨state.Filesystem, none, ts, args⟩],
          Except.ok ([("reply", Value.str "OK"), ("description", Value.str refac.Name),
            ("log", Value.list
              (logLoop (refac.Run ⟨state.Filesystem, none, ts, args⟩).Log [] false).1)], none)⟩
      else
        encodeChanges env input refac (refac.Run ⟨state.Filesystem, none, ts, args⟩)
          (logLoop (refac.Run ⟨state.Filesystem, none, ts, args⟩).Log [] false).1
          [Event.getRefactoring shortName,
            Event.engineRun shortName ⟨state.Filesystem, none, ts, args⟩] := by
  simp only [Run, hv, hts, hname, hargs, hrefac, assertString, assertSlice]

/-! ## Lemmas on the loops -/

theorem severitySwitch_fst (s : Severity) (fatalError : Bool) :
    (severitySwitch s fatalError).1 = (severitySwitch s false).1 := by
  cases s <;> rfl

theorem severitySwitch_snd (s : Severity) (fatalError : Bool) :
    (severitySwitch s fatalError).2 = (fatalError || decide (s = Severity.FATAL_ERROR)) := by
  cases s <;> simp [severitySwitch]

theorem logLoop_eq (entries : List Entry) (logs : List Value) (fatalError : Bool) :
    logLoop entries logs fatalError =
      (logs ++ entries.map (fun e => logRecord (severitySwitch e.Severity false).1 e.Message),
        fatalError || entries.any (fun e => decide (e.Severity = Severity.FATAL_ERROR))) := by
  induction entries generalizing logs fatalError with
  | nil => simp [logLoop]
  | cons e rest ih =>
    simp only [logLoop, ih, severitySwitch_snd, List.map_cons, List.any_cons]
    rw [severitySwitch_fst]
    simp [logRecord, Bool.or_assoc]

theorem fsLoop_append (changes : List FSChange) (done todo : List Value)
    (h : todo.length = changes.length) :
    fsLoop changes done.length (done ++ todo) = done ++ changes.map fsChangeSwitch := by
  induction changes generalizing done todo with
  | nil =>
    have : todo = [] := List.length_eq_zero.mp h
    simp [fsLoop, this]
  | cons c rest ih =>
    cases todo with
    | nil => simp at h
    | cons x todo =>
      simp only [List.length_cons, Nat.add_right_cancel_iff] at h
      have hset : (done ++ x :: todo).set done.length (fsChangeSwitch c) =
          (done ++ [fsChangeSwitch c]) ++ todo := by
        simp [List.set_append]
      have hlen : done.length + 1 = (done ++ [fsChangeSwitch c]).length := by simp
      simp only [fsLoop, hset]
      rw [hlen, ih _ _ h]
      simp

theorem fsLoop_eq (changes : List FSChange) :
    fsLoop changes 0 (List.replicate changes.length (Value.map [])) =
      changes.map fsChangeSwitch := by
  have h := fsLoop_append changes [] (List.replicate changes.length (Value.map [])) (by simp)
  simpa using h

theorem stringsJoin_diff (f : String) : stringsJoin [f, ".diff"] "" = f ++ ".diff" := by
  simp [stringsJoin, String.intercalate, String.intercalate.go]

theorem patchLoop_success (env : Env) (edits : List (String × EditSet))
    (h : encodingSucceeds env true edits = true) (changes : List Value) (calls : List Event) :
    ∃ calls2, patchLoop env edits changes calls =
      ⟨calls2, Except.ok (Except.ok (changes ++ edits.map (fun fe =>
        Value.map [("filename", Value.str fe.1), ("patchFile", Value.str (fe.1 ++ ".diff"))])))⟩ := by
  induction edits generalizing changes calls with
  | nil => exact ⟨calls, by simp [patchLoop]⟩
  | cons fe rest ih =>
    obtain ⟨f, e⟩ := fe
    simp only [encodingSucceeds, List.all_cons, if_true, Bool.and_eq_true] at h
    obtain ⟨h1, h2⟩ := h
    have h2b : encodingSucceeds env true rest = true := by simpa [encodingSucceeds] using h2
    cases hp : env.CreatePatchForFile e f with
    | error err => simp [hp] at h1
    | ok p =>
      simp only [hp] at h1
      obtain ⟨calls2, hc⟩ := ih h2b
        (changes ++ [Value.map [("filename", Value.str f), ("patchFile", Value.str (f ++ ".diff"))]])
        (calls ++ [Event.createPatchForFile e f, Event.osCreate (f ++ ".diff"),
          Event.patchWrite p f (some (f ++ ".diff")), Event.fileClose (f ++ ".diff")])
      refine ⟨calls2, ?_⟩
      simp only [patchLoop, hp, stringsJoin_diff, h1, if_true, hc]
      simp

theorem textLoop_success (env : Env) (edits : List (String × EditSet))
    (h : encodingSucceeds env false edits = true) (changes : List Value) (calls : List Event) :
    ∃ calls2 more, textLoop env edits changes calls =
      ⟨calls2, Except.ok (Except.ok (changes ++ more))⟩ := by
  induction edits generalizing changes calls with
  | nil => exact ⟨calls, [], by simp [textLoop]⟩
  | cons fe rest ih =>
    obtain ⟨f, e⟩ := fe
    simp only [encodingSucceeds, List.all_cons, Bool.and_eq_true] at h
    obtain ⟨h1, h2⟩ := h
    have h2b : encodingSucceeds env false rest = true := by simpa [encodingSucceeds] using h2
    cases hp : env.ApplyToFile e f with
    | error err => simp [hp] at h1
    | ok content =>
      obtain ⟨calls2, more, hc⟩ := ih h2b
        (changes ++ [Value.map [("filename", Value.str f), ("content", Value.str content)]])
        (calls ++ [Event.applyToFile e f])
      refine ⟨calls2, Value.map [("filename", Value.str f), ("content", Value.str content)] :: more, ?_⟩
      simp only [textLoop, hp, hc]
      simp

/-- The three ways `encodeChanges` ends: a panic, the error reply of a failed
encoding, or the reply `OK` with `files`, and `fsChanges` when there is a file
system change. -/
theorem encodeChanges_result (env : Env) (input : Input) (refac : Refactoring)
    (result : Result) (logs : List Value) (calls : List Event) :
    (∃ p, (encodeChanges env input refac result logs calls).result = Except.error p) ∨
    (∃ err, (encodeChanges env input refac result logs calls).result =
      Except.ok ([("reply", Value.str "Error"), ("message", Value.str err)], some err)) ∨
    (∃ changes, (encodeChanges env input refac result logs calls).result =
      Except.ok ([("reply", Value.str "OK"), ("description", Value.str refac.Name),
        ("log", Value.list logs), ("files", Value.list changes)] ++
        (if result.FSChanges.isEmpty then []
         else [("fsChanges", Value.list (result.FSChanges.map fsChangeSwitch))]), none)) := by
  unfold encodeChanges
  cases patchMode input with
  | error p => exact Or.inl ⟨p, rfl⟩
  | ok patch =>
    simp only
    generalize (if patch = true then patchLoop env result.Edits [] calls
      else textLoop env result.Edits [] calls) = enc
    obtain ⟨ecalls, eres⟩ := enc
    cases eres with
    | error p => exact Or.inl ⟨p, rfl⟩
    | ok r =>
      cases r with
      | error err => exact Or.inr (Or.inl ⟨err, rfl⟩)
      | ok changes =>
        refine Or.inr (Or.inr ⟨changes, ?_⟩)
        cases hfs : result.FSChanges with
        | nil => simp
        | cons c cs =>
          have := fsLoop_eq (c :: cs)
          simp only [List.length_cons] at this
          simp [this]

theorem encodeChanges_success (env : Env) (input : Input) (refac : Refactoring)
    (result : Result) (logs : List Value) (calls : List Event) (patch : Bool)
    (hmode : patchMode input = Except.ok patch)
    (henc : encodingSucceeds env patch result.Edits = true) :
    ∃ changes, (encodeChanges env input refac result logs calls).result =
      Except.ok ([("reply", Value.str "OK"), ("description", Value.str refac.Name),
        ("log", Value.list logs), ("files", Value.list changes)] ++
        (if result.FSChanges.isEmpty then []
         else [("fsChanges", Value.list (result.FSChanges.map fsChangeSwitch))]), none) := by
  have hloop : ∃ calls2 changes, (if patch = true then patchLoop env result.Edits [] calls
      else textLoop env result.Edits [] calls) = ⟨calls2, Except.ok (Except.ok changes)⟩ := by
    cases patch with
    | true =>
      obtain ⟨c2, h⟩ := patchLoop_success env result.Edits henc [] calls
      exact ⟨c2, _, by simpa using h⟩
    | false =>
      obtain ⟨c2, more, h⟩ := textLoop_success env result.Edits henc [] calls
      exact ⟨c2, _, by simpa using h⟩
  obtain ⟨calls2, changes, hl⟩ := hloop
  refine ⟨changes, ?_⟩
  unfold encodeChanges
  simp only [hmode, hl]
  cases hfs : result.FSChanges with
  | nil => simp
  | cons c cs =>
    have := fsLoop_eq (c :: cs)
    simp only [List.length_cons] at this
    simp [this]

theorem Validate_ok_inv (env : Env) (state : State) (input : Input) (e : Option String)
    (h : Validate env state input = Except.ok (true, e)) :
    limitInvalid input = Except.ok false ∧ modeInvalid input = Except.ok false := by
  unfold Validate at h
  split at h
  · simp at h
  · split at h
    · simp at h
    · split at h
      · simp at h
      · split at h
        · simp at h
        · simp at h
        · rename_i hl
          split at h
          · simp at h
          · simp at h
          · rename_i hm
            exact ⟨hl, hm⟩

theorem patchMode_of_modeInvalid (input : Input) (h : modeInvalid input = Except.ok false) :
    ∃ patch, patchMode input = Except.ok patch := by
  unfold modeInvalid at h
  unfold patchMode
  cases hm : input.lookup "mode" with
  | none => exact ⟨true, rfl⟩
  | some v =>
    rw [hm] at h
    cases v with
    | str m => exact ⟨decide (m = "patch"), rfl⟩
    | null => simp [assertString] at h
    | bool b => simp [assertString] at h
    | int n => simp [assertString] at h
    | float f => simp [assertString] at h
    | list xs => simp [assertString] at h
    | map kvs => simp [assertString] at h

theorem severitySwitch_string (s : Severity) :
    (severitySwitch s false).1 =
      (match s with
        | Severity.INFO => ""
        | Severity.WARNING => "warning"
        | Severity.ERROR => "error"
        | Severity.FATAL_ERROR => "fatal") := by
  cases s <;> rfl

theorem logLoop_flag (entries : List Entry) :
    (logLoop entries [] false).2 = true ↔
      ∃ e ∈ entries, e.Severity = Severity.FATAL_ERROR := by
  rw [logLoop_eq]
  simp

theorem fsChangeSwitch_eq (c : FSChange) :
    fsChangeSwitch c =
      (match c with
        | FSChange.FSCreateFile path contents =>
          Value.map [("change", Value.str "create"), ("file", Value.str path),
            ("content", Value.str contents)]
        | FSChange.FSRemove path =>
          Value.map [("change", Value.str "delete"), ("path", Value.str path)]
        | FSChange.FSRename path newName =>
          Value.map [("change", Value.str "rename"), ("from", Value.str path),
            ("to", Value.str newName)]) := by
  cases c <;> rfl

theorem logLoop_records (entries : List Entry) :
    (logLoop entries [] false).1 =
      entries.map (fun e => logRecord
        (match e.Severity with
          | Severity.INFO => ""
          | Severity.WARNING => "warning"
          | Severity.ERROR => "error"
          | Severity.FATAL_ERROR => "fatal") e.Message) := by
  rw [logLoop_eq]
  simp only [List.nil_append]
  apply List.map_congr_left
  intro e _
  rw [severitySwitch_string]

/-! ## Validation -/

/-- C1. The mode check accepts strings other than `text` and `patch`: in a
ready session with the transformation registered, `Validate` returns
`(true, nil)` for the modes `patchwork` and `context`, and `Run` with mode
`patchwork` runs the engine and answers `OK` in text mode. -/
theorem mode_containing_text_or_patch_accepted :
    Validate (exEnv exEditResult true) exState
        (exRequest "rename" [("mode", Value.str "patchwork")]) = Except.ok (true, none) ∧
    Validate (exEnv exEditResult true) exState
        (exRequest "rename" [("mode", Value.str "context")]) = Except.ok (true, none) ∧
    Run (exEnv exEditResult true) exState
        (exRequest "rename" [("mode", Value.str "patchwork")]) =
      ⟨[Event.getRefactoring "rename", Event.engineRun "rename" exConfig,
          Event.applyToFile 7 "foo.go"],
        Except.ok ([("reply", Value.str "OK"), ("description", Value.str "Rename"),
          ("log", Value.list []),
          ("files", Value.list
            [Value.map [("filename", Value.str "foo.go"), ("content", Value.str "foo.go")]])],
          none)⟩ :=
  ⟨rfl, rfl, rfl⟩

/-- C2. When the log of the engine's result has a FATAL entry, `Run` on a
valid request returns a nil error and the reply with exactly the keys
`reply` (= `OK`), `description` and `log`; the only calls made are the lookup
and the run of the refactoring, so no edit is encoded and no diff file
created. -/
theorem fatal_log_short_circuit (env : Env) (state : State) (input : Input)
    (ts : TextSelection) (shortName : String) (args : List Value) (refac : Refactoring)
    (hv : Validate env state input = Except.ok (true, none))
    (hts : textSelectionOf env state input = Except.ok ts)
    (hname : input.lookup "transformation" = some (Value.str shortName))
    (hargs : input.lookup "arguments" = some (Value.list args))
    (hrefac : GetRefactoring env shortName = some refac)
    (hfatal : ∃ e ∈ (refac.Run ⟨state.Filesystem, none, ts, args⟩).Log,
      e.Severity = Severity.FATAL_ERROR) :
    Run env state input =
      ⟨[Event.getRefactoring shortName,
          Event.engineRun shortName ⟨state.Filesystem, none, ts, args⟩],
        Except.ok ([("reply", Value.str "OK"), ("description", Value.str refac.Name),
          ("log", Value.list
            (logLoop (refac.Run ⟨state.Filesystem, none, ts, args⟩).Log [] false).1)],
          none)⟩ := by
  rw [Run_of_valid env state input ts shortName args refac hv hts hname hargs hrefac]
  have hflag : (logLoop (refac.Run ⟨state.Filesystem, none, ts, args⟩).Log [] false).2
      = true := by
    rw [logLoop_eq]
    obtain ⟨e, he, hs⟩ := hfatal
    simp only [Bool.false_or, List.any_eq_true, decide_eq_true_eq]
    exact ⟨e, he, hs⟩
  simp [hflag]

theorem fatal_log_short_circuit_witness :
    Run (exEnv exFatalResult true) exState (exRequest "rename" []) =
      ⟨[Event.getRefactoring "rename", Event.engineRun "rename" exConfig],
        Except.ok ([("reply", Value.str "OK"), ("description", Value.str "Rename"),
          ("log", Value.list
            [Value.map [("severity", Value.str ""), ("message", Value.str "checking")],
             Value.map [("severity", Value.str "fatal"),
               ("message", Value.str "cannot rename")]])],
          none)⟩ :=
  fatal_log_short_circuit (exEnv exFatalResult true) exState (exRequest "rename" [])
    exTextSelection "rename" [] (exRefactoring exFatalResult) rfl rfl rfl rfl rfl
    ⟨⟨Severity.FATAL_ERROR, "cannot rename"⟩, by simp [exRefactoring, exFatalResult], rfl⟩

/-- C3. `Run` panics on requests it can receive: a `limit` decoded from JSON
is a `float64` and fails the assertion `limit.(int)` in `Validate`; a request
without `transformation` fails `input["transformation"].(string)`; a request
that passes validation without `textselection` fails the assertion of line 31. -/
theorem Run_panics_on_malformed_request :
    (Run (exEnv exEditResult true) exState
        (exRequest "rename" [("limit", Value.float ⟨5, 0⟩)])).result =
      Except.error Panic.typeAssertion ∧
    (Run (exEnv exEditResult true) exState [("textselection", exSelection),
        ("arguments", Value.list [])]).result = Except.error Panic.typeAssertion ∧
    (Run (exEnv exEditResult true) exState [("transformation", Value.str "rename"),
        ("arguments", Value.list [])]).result = Except.error Panic.typeAssertion :=
  ⟨rfl, rfl, rfl⟩

/-- C4. While the session state is below 2, `Run` returns the reply
`Error` with the message `State of 2 (file system configured) is required`
and that error, whatever the request, and makes no call to the engine. -/
theorem state_gate (env : Env) (state : State) (input : Input) (h : state.State < 2) :
    Run env state input =
      ⟨[], Except.ok ([("reply", Value.str "Error"),
          ("message", Value.str "State of 2 (file system configured) is required")],
        some "State of 2 (file system configured) is required")⟩ :=
  Run_of_invalid env state input _ (Validate_not_ready env state input h)

theorem state_gate_witness :
    exStateEarly.State < 2 ∧
    Run (exEnv exEditResult true) exStateEarly (exRequest "rename" []) =
      ⟨[], Except.ok ([("reply", Value.str "Error"),
          ("message", Value.str "State of 2 (file system configured) is required")],
        some "State of 2 (file system configured) is required")⟩ :=
  ⟨by decide, state_gate (exEnv exEditResult true) exStateEarly (exRequest "rename" [])
    (by decide)⟩

/-- C5. A request whose transformation name is not a short name of the
registry gets the reply `Error` with a message and that error, without any
call to the engine (the message is that of the state check when the session
is not ready, that of the transformation check otherwise); a registered name
passes validation in a ready session when the request has no `limit` and no
`mode` key. -/
theorem transformation_registered_check (env : Env) (state : State) (input : Input)
    (shortName : String)
    (hname : input.lookup "transformation" = some (Value.str shortName)) :
    (shortName ∉ env.AllRefactorings.map Prod.fst →
      Run env state input =
        ⟨[], Except.ok ([("reply", Value.str "Error"),
            ("message", Value.str (if state.State < 2
              then "State of 2 (file system configured) is required"
              else "Transformation given is not a valid refactoring name"))],
          some (if state.State < 2
              then "State of 2 (file system configured) is required"
              else "Transformation given is not a valid refactoring name"))⟩) ∧
    (shortName ∈ env.AllRefactorings.map Prod.fst → 2 ≤ state.State →
      input.lookup "limit" = none → input.lookup "mode" = none →
      Validate env state input = Except.ok (true, none)) := by
  constructor
  · intro hreg
    by_cases hs : state.State < 2
    · simp only [hs, if_true]
      exact Run_of_invalid env state input _ (Validate_not_ready env state input hs)
    · simp only [hs, if_false]
      exact Run_of_invalid env state input _
        (Validate_unregistered env state input shortName (not_lt.mp hs) hname hreg)
  · intro hreg hready hlimit hmode
    rw [Validate_registered env state input shortName hready hname hreg,
      limitInvalid_absent input hlimit, modeInvalid_absent input hmode]

theorem transformation_registered_check_witness :
    Run (exEnv exEditResult true) exState (exRequest "extract" []) =
      ⟨[], Except.ok ([("reply", Value.str "Error"),
          ("message", Value.str "Transformation given is not a valid refactoring name")],
        some "Transformation given is not a valid refactoring name")⟩ ∧
    Validate (exEnv exEditResult true) exState (exRequest "rename" []) =
      Except.ok (true, none) :=
  ⟨(transformation_registered_check (exEnv exEditResult true) exState
      (exRequest "extract" []) "extract" rfl).1 (by decide),
   (transformation_registered_check (exEnv exEditResult true) exState
      (exRequest "rename" []) "rename" rfl).2 (by decide) (by decide) rfl rfl⟩

/-- C6. In a ready session, with a registered transformation and no `mode`
key, `Validate` accepts a request whose `limit` is the integer `n` if and
only if `0 ≤ n` (so `limit = 0` is accepted); for `n < 0`, `Run` returns the
reply `Error` with the message of the limit check, paired with that error. -/
theorem limit_check (env : Env) (state : State) (input : Input) (shortName : String)
    (n : Int) (hready : 2 ≤ state.State)
    (hname : input.lookup "transformation" = some (Value.str shortName))
    (hreg : shortName ∈ env.AllRefactorings.map Prod.fst)
    (hmode : input.lookup "mode" = none)
    (hlimit : input.lookup "limit" = some (Value.int n)) :
    (Validate env state input = Except.ok (true, none) ↔ 0 ≤ n) ∧
    (n < 0 → Run env state input =
      ⟨[], Except.ok ([("reply", Value.str "Error"),
          ("message", Value.str "\"limit\" key must be a positive integer")],
        some "\"limit\" key must be a positive integer")⟩) := by
  have hV := Validate_registered env state input shortName hready hname hreg
  rw [limitInvalid_int input n hlimit, modeInvalid_absent input hmode] at hV
  by_cases hn : n < 0
  · have hd : decide (n < 0) = true := by simpa using hn
    simp only [hd] at hV
    refine ⟨?_, fun _ => Run_of_invalid env state input _ hV⟩
    rw [hV]
    constructor
    · intro h
      simp at h
    · intro h
      omega
  · have hd : decide (n < 0) = false := by simpa using hn
    simp only [hd] at hV
    refine ⟨?_, fun h => absurd h hn⟩
    rw [hV]
    constructor
    · intro _
      omega
    · intro _
      rfl

theorem limit_check_witness :
    (Validate (exEnv exEditResult true) exState
        (exRequest "rename" [("limit", Value.int 0)]) = Except.ok (true, none) ↔
      (0 : Int) ≤ 0) ∧
    Run (exEnv exEditResult true) exState (exRequest "rename" [("limit", Value.int (-1))]) =
      ⟨[], Except.ok ([("reply", Value.str "Error"),
          ("message", Value.str "\"limit\" key must be a positive integer")],
        some "\"limit\" key must be a positive integer")⟩ :=
  ⟨(limit_check (exEnv exEditResult true) exState
      (exRequest "rename" [("limit", Value.int 0)]) "rename" 0
      (by decide) rfl (by decide) rfl rfl).1,
   (limit_check (exEnv exEditResult true) exState
      (exRequest "rename" [("limit", Value.int (-1))]) "rename" (-1)
      (by decide) rfl (by decide) rfl rfl).2 (by decide)⟩

/-- C7. The checks of `Validate` are made in the order state,
transformation, limit, mode, and the first failing one gives the error: a
state below 2 gives the state error whatever the request; in a ready session
an unregistered name gives the transformation error whatever `limit` and
`mode` are; with a registered name a negative `limit` gives the limit error
whatever `mode` is; the mode error is returned only when the three earlier
checks pass; and the message of the `Error` reply of `Run` is the text of the
error of `Validate`. -/
theorem validation_order (env : Env) (state : State) (input : Input) :
    (state.State < 2 →
      Validate env state input =
        Except.ok (false, some "State of 2 (file system configured) is required")) ∧
    (∀ t, 2 ≤ state.State → input.lookup "transformation" = some (Value.str t) →
      t ∉ env.AllRefactorings.map Prod.fst →
      Validate env state input =
        Except.ok (false, some "Transformation given is not a valid refactoring name")) ∧
    (∀ t n, 2 ≤ state.State → input.lookup "transformation" = some (Value.str t) →
      t ∈ env.AllRefactorings.map Prod.fst →
      input.lookup "limit" = some (Value.int n) → n < 0 →
      Validate env state input =
        Except.ok (false, some "\"limit\" key must be a positive integer")) ∧
    (∀ t m, 2 ≤ state.State → input.lookup "transformation" = some (Value.str t) →
      t ∈ env.AllRefactorings.map Prod.fst →
      limitInvalid input = Except.ok false →
      input.lookup "mode" = some (Value.str m) →
      MatchString (regexpMustCompile modeChkTag) m = false →
      Validate env state input =
        Except.ok (false, some "\"mode\" key must be \"text|patch\"")) ∧
    (∀ err, Validate env state input = Except.ok (false, some err) →
      Run env state input =
        ⟨[], Except.ok ([("reply", Value.str "Error"), ("message", Value.str err)],
          some err)⟩) := by
  refine ⟨Validate_not_ready env state input, ?_, ?_, ?_, Run_of_invalid env state input⟩
  · intro t hready hname hreg
    exact Validate_unregistered env state input t hready hname hreg
  · intro t n hready hname hreg hlimit hn
    rw [Validate_registered env state input t hready hname hreg,
      limitInvalid_int input n hlimit]
    have hd : decide (n < 0) = true := by simpa using hn
    simp [hd]
  · intro t m hready hname hreg hlimit hmode hmatch
    have hc : regexpMustCompile modeChkTag =
        [['t', 'e', 'x', 't'], ['p', 'a', 't', 'c', 'h']] := by decide
    rw [hc] at hmatch
    rw [Validate_registered env state input t hready hname hreg, hlimit,
      modeInvalid_str input m hmode, hmatch]
    rfl

theorem validation_order_witness :
    Validate (exEnv exEditResult true) exStateEarly (exRequest "extract" []) =
      Except.ok (false, some "State of 2 (file system configured) is required") ∧
    Validate (exEnv exEditResult true) exState
        (exRequest "extract" [("limit", Value.int (-1))]) =
      Except.ok (false, some "Transformation given is not a valid refactoring name") ∧
    Validate (exEnv exEditResult true) exState
        (exRequest "rename" [("limit", Value.int (-1)), ("mode", Value.str "diff")]) =
      Except.ok (false, some "\"limit\" key must be a positive integer") ∧
    Validate (exEnv exEditResult true) exState
        (exRequest "rename" [("limit", Value.int 3), ("mode", Value.str "diff")]) =
      Except.ok (false, some "\"mode\" key must be \"text|patch\"") :=
  ⟨(validation_order (exEnv exEditResult true) exStateEarly (exRequest "extract" [])).1
      (by decide),
   (validation_order (exEnv exEditResult true) exState
      (exRequest "extract" [("limit", Value.int (-1))])).2.1 "extract" (by decide) rfl
      (by decide),
   (validation_order (exEnv exEditResult true) exState
      (exRequest "rename" [("limit", Value.int (-1)), ("mode", Value.str "diff")])).2.2.1
      "rename" (-1) (by decide) rfl (by decide) rfl (by decide),
   (validation_order (exEnv exEditResult true) exState
      (exRequest "rename" [("limit", Value.int 3), ("mode", Value.str "diff")])).2.2.2.1
      "rename" "diff" (by decide) rfl (by decide) rfl rfl (by decide)⟩

/-! ## The reply -/

/-- C8, the claim as stated fails: the engine's result `exFatalResult` has a
file system change, and the reply of `Run` has no `fsChanges` key, because
the log has a FATAL entry. -/
theorem fsChanges_absent_with_fatal_log :
    ((exRefactoring exFatalResult).Run exConfig).FSChanges = [FSChange.FSRemove "old.go"] ∧
    ∃ reply, (Run (exEnv exFatalResult true) exState (exRequest "rename" [])).result =
        Except.ok (reply, none) ∧
      reply.map Prod.fst = ["reply", "description", "log"] :=
  ⟨rfl, _, rfl, rfl⟩

/-- C8, amended. For a request that passes validation and reaches the engine,
whenever `Run` returns a reply, the key `fsChanges` is in the reply if and
only if the engine's result has at least one file system change, its log has
no FATAL entry and the returned error is nil (the edits were encoded). -/
theorem fsChanges_key_iff (env : Env) (state : State) (input : Input)
    (ts : TextSelection) (shortName : String) (args : List Value) (refac : Refactoring)
    (reply : Reply) (err : Option String)
    (hv : Validate env state input = Except.ok (true, none))
    (hts : textSelectionOf env state input = Except.ok ts)
    (hname : input.lookup "transformation" = some (Value.str shortName))
    (hargs : input.lookup "arguments" = some (Value.list args))
    (hrefac : GetRefactoring env shortName = some refac)
    (hret : (Run env state input).result = Except.ok (reply, err)) :
    "fsChanges" ∈ reply.map Prod.fst ↔
      ((refac.Run ⟨state.Filesystem, none, ts, args⟩).FSChanges ≠ [] ∧
        (∀ e ∈ (refac.Run ⟨state.Filesystem, none, ts, args⟩).Log,
          e.Severity ≠ Severity.FATAL_ERROR) ∧
        err = none) := by
  rw [Run_of_valid env state input ts shortName args refac hv hts hname hargs hrefac] at hret
  by_cases hflag : (logLoop (refac.Run ⟨state.Filesystem, none, ts, args⟩).Log [] false).2
      = true
  · simp only [hflag, if_true, Except.ok.injEq, Prod.mk.injEq] at hret
    obtain ⟨hr, _⟩ := hret
    obtain ⟨e, he, hs⟩ := (logLoop_flag _).mp hflag
    subst hr
    constructor
    · intro h
      simp at h
    · intro h
      exact absurd hs (h.2.1 e he)
  · have hno : ∀ e ∈ (refac.Run ⟨state.Filesystem, none, ts, args⟩).Log,
        e.Severity ≠ Severity.FATAL_ERROR := by
      intro e he hs
      exact hflag ((logLoop_flag _).mpr ⟨e, he, hs⟩)
    simp only [hflag, Bool.false_eq_true, if_false] at hret
    rcases encodeChanges_result env input refac
      (refac.Run ⟨state.Filesystem, none, ts, args⟩)
      (logLoop (refac.Run ⟨state.Filesystem, none, ts, args⟩).Log [] false).1
      [Event.getRefactoring shortName,
        Event.engineRun shortName ⟨state.Filesystem, none, ts, args⟩]
      with ⟨p, hp⟩ | ⟨msg, hm⟩ | ⟨changes, hc⟩
    · rw [hp] at hret
      simp at hret
    · rw [hm] at hret
      simp only [if_false, Except.ok.injEq, Prod.mk.injEq] at hret
      obtain ⟨hr, he⟩ := hret
      subst hr
      subst he
      simp
    · rw [hc] at hret
      simp only [if_false, Except.ok.injEq, Prod.mk.injEq] at hret
      obtain ⟨hr, he⟩ := hret
      subst hr
      subst he
      cases hfs : (refac.Run ⟨state.Filesystem, none, ts, args⟩).FSChanges with
      | nil => simp
      | cons c cs =>
        constructor
        · intro _
          exact ⟨by simp, hno, rfl⟩
        · intro _
          simp

theorem fsChanges_key_iff_witness :
    "fsChanges" ∈ List.map Prod.fst
        [("reply", Value.str "OK"), ("description", Value.str "Rename"),
         ("log", Value.list [logRecord "warning" "moved"]),
         ("files", Value.list [Value.map [("filename", Value.str "foo.go"),
           ("patchFile", Value.str "foo.go.diff")]]),
         ("fsChanges", Value.list (exFSResult.FSChanges.map fsChangeSwitch))] ↔
      (((exRefactoring exFSResult).Run ⟨exState.Filesystem, none, exTextSelection, []⟩).FSChanges
          ≠ [] ∧
        (∀ e ∈ ((exRefactoring exFSResult).Run
            ⟨exState.Filesystem, none, exTextSelection, []⟩).Log,
          e.Severity ≠ Severity.FATAL_ERROR) ∧
        (none : Option String) = none) :=
  fsChanges_key_iff (exEnv exFSResult true) exState (exRequest "rename" [])
    exTextSelection "rename" [] (exRefactoring exFSResult) _ none rfl rfl rfl rfl rfl rfl

/-- C9. For a request that passes validation and reaches the engine, when
the log has no FATAL entry, every call of the encoding loop succeeds and the
engine's result has at least one file system change, `Run` returns a reply
with a nil error whose `fsChanges` is a sequence of the same length as the
engine's, the record at index `i` being the encoding of the change at index
`i`: create/file/content, delete/path, or rename/from/to. -/
theorem fsChanges_encoding (env : Env) (state : State) (input : Input)
    (ts : TextSelection) (shortName : String) (args : List Value) (refac : Refactoring)
    (hv : Validate env state input = Except.ok (true, none))
    (hts : textSelectionOf env state input = Except.ok ts)
    (hname : input.lookup "transformation" = some (Value.str shortName))
    (hargs : input.lookup "arguments" = some (Value.list args))
    (hrefac : GetRefactoring env shortName = some refac)
    (hnofatal : ∀ e ∈ (refac.Run ⟨state.Filesystem, none, ts, args⟩).Log,
      e.Severity ≠ Severity.FATAL_ERROR)
    (henc : ∀ patch, patchMode input = Except.ok patch →
      encodingSucceeds env patch (refac.Run ⟨state.Filesystem, none, ts, args⟩).Edits = true)
    (hne : (refac.Run ⟨state.Filesystem, none, ts, args⟩).FSChanges ≠ []) :
    ∃ reply recs, (Run env state input).result = Except.ok (reply, none) ∧
      reply.lookup "fsChanges" = some (Value.list recs) ∧
      recs.length = (refac.Run ⟨state.Filesystem, none, ts, args⟩).FSChanges.length ∧
      ∀ i (hi : i < (refac.Run ⟨state.Filesystem, none, ts, args⟩).FSChanges.length),
        recs[i]? = some
          (match (refac.Run ⟨state.Filesystem, none, ts, args⟩).FSChanges[i] with
            | FSChange.FSCreateFile path contents =>
              Value.map [("change", Value.str "create"), ("file", Value.str path),
                ("content", Value.str contents)]
            | FSChange.FSRemove path =>
              Value.map [("change", Value.str "delete"), ("path", Value.str path)]
            | FSChange.FSRename path newName =>
              Value.map [("change", Value.str "rename"), ("from", Value.str path),
                ("to", Value.str newName)]) := by
  have hflag : (logLoop (refac.Run ⟨state.Filesystem, none, ts, args⟩).Log [] false).2
      = false := by
    rw [Bool.eq_false_iff]
    intro h
    obtain ⟨e, he, hs⟩ := (logLoop_flag _).mp h
    exact hnofatal e he hs
  obtain ⟨patch, hpatch⟩ :=
    patchMode_of_modeInvalid input (Validate_ok_inv env state input none hv).2
  obtain ⟨changes, hc⟩ := encodeChanges_success env input refac
    (refac.Run ⟨state.Filesystem, none, ts, args⟩)
    (logLoop (refac.Run ⟨state.Filesystem, none, ts, args⟩).Log [] false).1
    [Event.getRefactoring shortName,
      Event.engineRun shortName ⟨state.Filesystem, none, ts, args⟩]
    patch hpatch (henc patch hpatch)
  have hempty : (refac.Run ⟨state.Filesystem, none, ts, args⟩).FSChanges.isEmpty = false := by
    cases hfs : (refac.Run ⟨state.Filesystem, none, ts, args⟩).FSChanges with
    | nil => exact absurd hfs hne
    | cons c cs => rfl
  rw [hempty] at hc
  refine ⟨[("reply", Value.str "OK"), ("description", Value.str refac.Name),
      ("log", Value.list
        (logLoop (refac.Run ⟨state.Filesystem, none, ts, args⟩).Log [] false).1),
      ("files", Value.list changes),
      ("fsChanges", Value.list
        ((refac.Run ⟨state.Filesystem, none, ts, args⟩).FSChanges.map fsChangeSwitch))],
    (refac.Run ⟨state.Filesystem, none, ts, args⟩).FSChanges.map fsChangeSwitch,
    ?_, ?_, ?_, ?_⟩
  · rw [Run_of_valid env state input ts shortName args refac hv hts hname hargs hrefac,
      hflag]
    simpa using hc
  · simp [List.lookup]
  · simp
  · intro i hi
    rw [List.getElem?_map, List.getElem?_eq_getElem hi, Option.map_some',
      fsChangeSwitch_eq]

theorem fsChanges_encoding_witness :
    ∃ reply recs, (Run (exEnv exFSResult true) exState (exRequest "rename" [])).result =
        Except.ok (reply, none) ∧
      reply.lookup "fsChanges" = some (Value.list recs) ∧
      recs.length = 3 ∧
      recs[0]? = some (Value.map [("change", Value.str "create"),
        ("file", Value.str "new.go"), ("content", Value.str "package p")]) ∧
      recs[1]? = some (Value.map [("change", Value.str "delete"),
        ("path", Value.str "old.go")]) ∧
      recs[2]? = some (Value.map [("change", Value.str "rename"),
        ("from", Value.str "a.go"), ("to", Value.str "b.go")]) := by
  obtain ⟨reply, recs, h1, h2, h3, h4⟩ :=
    fsChanges_encoding (exEnv exFSResult true) exState (exRequest "rename" [])
      exTextSelection "rename" [] (exRefactoring exFSResult) rfl rfl rfl rfl rfl
      (by simp [exRefactoring, exFSResult])
      (by intro patch _; cases patch <;> rfl)
      (by simp [exRefactoring, exFSResult])
  exact ⟨reply, recs, h1, h2, h3, h4 0 (by decide), h4 1 (by decide), h4 2 (by decide)⟩

/-- C10. The loop over the log gives, for every log, one record per entry,
in order, with the entry's message and the severity string (empty for INFO,
`warning`, `error`, `fatal`), and sets the fatal flag if and only if some
entry is FATAL; and whenever `Run`, on a request that passes validation and
reaches the engine, returns a reply with a nil error, the `log` of the reply
is that sequence of records for the log of the engine's result. -/
theorem log_encoding (env : Env) (state : State) (input : Input)
    (ts : TextSelection) (shortName : String) (args : List Value) (refac : Refactoring)
    (reply : Reply)
    (hv : Validate env state input = Except.ok (true, none))
    (hts : textSelectionOf env state input = Except.ok ts)
    (hname : input.lookup "transformation" = some (Value.str shortName))
    (hargs : input.lookup "arguments" = some (Value.list args))
    (hrefac : GetRefactoring env shortName = some refac)
    (hret : (Run env state input).result = Except.ok (reply, none)) :
    (∀ entries : List Entry,
      (logLoop entries [] false).1 =
          entries.map (fun e => logRecord
            (match e.Severity with
              | Severity.INFO => ""
              | Severity.WARNING => "warning"
              | Severity.ERROR => "error"
              | Severity.FATAL_ERROR => "fatal") e.Message) ∧
      ((logLoop entries [] false).2 = true ↔
        ∃ e ∈ entries, e.Severity = Severity.FATAL_ERROR)) ∧
    reply.lookup "log" = some (Value.list
      ((refac.Run ⟨state.Filesystem, none, ts, args⟩).Log.map (fun e => logRecord
        (match e.Severity with
          | Severity.INFO => ""
          | Severity.WARNING => "warning"
          | Severity.ERROR => "error"
          | Severity.FATAL_ERROR => "fatal") e.Message))) := by
  refine ⟨fun entries => ⟨logLoop_records entries, logLoop_flag entries⟩, ?_⟩
  rw [← logLoop_records]
  rw [Run_of_valid env state input ts shortName args refac hv hts hname hargs hrefac] at hret
  by_cases hflag : (logLoop (refac.Run ⟨state.Filesystem, none, ts, args⟩).Log [] false).2
      = true
  · simp only [hflag, if_true, Except.ok.injEq, Prod.mk.injEq] at hret
    obtain ⟨hr, _⟩ := hret
    subst hr
    simp [List.lookup]
  · simp only [hflag, Bool.false_eq_true, if_false] at hret
    rcases encodeChanges_result env input refac
      (refac.Run ⟨state.Filesystem, none, ts, args⟩)
      (logLoop (refac.Run ⟨state.Filesystem, none, ts, args⟩).Log [] false).1
      [Event.getRefactoring shortName,
        Event.engineRun shortName ⟨state.Filesystem, none, ts, args⟩]
      with ⟨p, hp⟩ | ⟨msg, hm⟩ | ⟨changes, hc⟩
    · rw [hp] at hret
      simp at hret
    · rw [hm] at hret
      simp at hret
    · rw [hc] at hret
      simp only [Except.ok.injEq, Prod.mk.injEq] at hret
      obtain ⟨hr, _⟩ := hret
      subst hr
      simp [List.lookup]

theorem log_encoding_witness :
    List.lookup "log"
        [("reply", Value.str "OK"), ("description", Value.str "Rename"),
         ("log", Value.list [logRecord "" "checking", logRecord "fatal" "cannot rename"])] =
      some (Value.list [logRecord "" "checking", logRecord "fatal" "cannot rename"]) :=
  (log_encoding (exEnv exFatalResult true) exState (exRequest "rename" [])
    exTextSelection "rename" [] (exRefactoring exFatalResult) _ rfl rfl rfl rfl rfl rfl).2

/-! ## Lemmas on the encoding loops -/

theorem assertString_ok (v : Option Value) (s : String)
    (h : assertString v = Except.ok s) : v = some (Value.str s) := by
  unfold assertString at h
  split at h
  · simp only [Except.ok.injEq] at h
    rw [h]
  · simp at h

theorem logLoop_flag_false (entries : List Entry)
    (h : ∀ e ∈ entries, e.Severity ≠ Severity.FATAL_ERROR) :
    (logLoop entries [] false).2 = false := by
  rw [Bool.eq_false_iff]
  intro hf
  obtain ⟨e, he, hs⟩ := (logLoop_flag entries).mp hf
  exact h e he hs

theorem patchLoop_success_calls (env : Env) (edits : List (String × EditSet))
    (h : encodingSucceeds env true edits = true) (changes : List Value) (calls : List Event) :
    ∃ calls2, patchLoop env edits changes calls =
        ⟨calls ++ calls2, Except.ok (Except.ok (changes ++ edits.map (fun fe =>
          Value.map [("filename", Value.str fe.1),
            ("patchFile", Value.str (fe.1 ++ ".diff"))])))⟩ ∧
      (∀ fe ∈ edits, Event.osCreate (fe.1 ++ ".diff") ∈ calls2) ∧
      (∀ e f, Event.applyToFile e f ∉ calls2) := by
  induction edits generalizing changes calls with
  | nil => exact ⟨[], by simp [patchLoop], by simp, by simp⟩
  | cons fe rest ih =>
    obtain ⟨f, e⟩ := fe
    simp only [encodingSucceeds, List.all_cons, if_true, Bool.and_eq_true] at h
    obtain ⟨h1, h2⟩ := h
    have h2b : encodingSucceeds env true rest = true := by simpa [encodingSucceeds] using h2
    cases hp : env.CreatePatchForFile e f with
    | error err => simp [hp] at h1
    | ok p =>
      simp only [hp] at h1
      obtain ⟨calls2, hc, hmem, hno⟩ := ih h2b
        (changes ++ [Value.map [("filename", Value.str f), ("patchFile", Value.str (f ++ ".diff"))]])
        (calls ++ [Event.createPatchForFile e f, Event.osCreate (f ++ ".diff"),
          Event.patchWrite p f (some (f ++ ".diff")), Event.fileClose (f ++ ".diff")])
      refine ⟨[Event.createPatchForFile e f, Event.osCreate (f ++ ".diff"),
          Event.patchWrite p f (some (f ++ ".diff")), Event.fileClose (f ++ ".diff")] ++ calls2,
        ?_, ?_, ?_⟩
      · simp only [patchLoop, hp, stringsJoin_diff, h1, if_true, hc]
        simp
      · intro fe hfe
        rcases List.mem_cons.mp hfe with hfe | hfe
        · subst hfe
          simp
        · exact List.mem_append_right _ (hmem fe hfe)
      · intro e2 f2 hin
        rcases List.mem_append.mp hin with hin | hin
        · simp at hin
        · exact hno e2 f2 hin

theorem textLoop_success_exact (env : Env) (edits : List (String × EditSet))
    (h : encodingSucceeds env false edits = true) (changes : List Value) (calls : List Event) :
    ∃ more, textLoop env edits changes calls =
        ⟨calls ++ edits.map (fun fe => Event.applyToFile fe.2 fe.1),
          Except.ok (Except.ok (changes ++ more))⟩ ∧
      List.Forall₂ (fun fe r => ∃ c, env.ApplyToFile fe.2 fe.1 = Except.ok c ∧
        r = Value.map [("filename", Value.str fe.1), ("content", Value.str c)]) edits more := by
  induction edits generalizing changes calls with
  | nil => exact ⟨[], by simp [textLoop], List.Forall₂.nil⟩
  | cons fe rest ih =>
    obtain ⟨f, e⟩ := fe
    simp only [encodingSucceeds, List.all_cons, Bool.and_eq_true] at h
    obtain ⟨h1, h2⟩ := h
    have h2b : encodingSucceeds env false rest = true := by simpa [encodingSucceeds] using h2
    cases hp : env.ApplyToFile e f with
    | error err => simp [hp] at h1
    | ok content =>
      obtain ⟨more, hc, hall⟩ := ih h2b
        (changes ++ [Value.map [("filename", Value.str f), ("content", Value.str content)]])
        (calls ++ [Event.applyToFile e f])
      refine ⟨Value.map [("filename", Value.str f), ("content", Value.str content)] :: more,
        ?_, List.Forall₂.cons ⟨content, hp, rfl⟩ hall⟩
      simp only [textLoop, hp, hc]
      simp

theorem patchLoop_fail (env : Env) (pre post : List (String × EditSet)) (f : String)
    (e : EditSet) (err : String) (hpre : encodingSucceeds env true pre = true)
    (hfail : env.CreatePatchForFile e f = Except.error err)
    (changes : List Value) (calls : List Event) :
    ∃ calls2, patchLoop env (pre ++ (f, e) :: post) changes calls =
      ⟨calls2, Except.ok (Except.error err)⟩ := by
  induction pre generalizing changes calls with
  | nil => exact ⟨calls ++ [Event.createPatchForFile e f], by simp [patchLoop, hfail]⟩
  | cons fe rest ih =>
    obtain ⟨f1, e1⟩ := fe
    simp only [encodingSucceeds, List.all_cons, if_true, Bool.and_eq_true] at hpre
    obtain ⟨h1, h2⟩ := hpre
    have h2b : encodingSucceeds env true rest = true := by simpa [encodingSucceeds] using h2
    cases hp : env.CreatePatchForFile e1 f1 with
    | error err1 => simp [hp] at h1
    | ok p =>
      simp only [hp] at h1
      obtain ⟨calls2, hc⟩ := ih h2b
        (changes ++ [Value.map [("filename", Value.str f1),
          ("patchFile", Value.str (f1 ++ ".diff"))]])
        (calls ++ [Event.createPatchForFile e1 f1, Event.osCreate (f1 ++ ".diff"),
          Event.patchWrite p f1 (some (f1 ++ ".diff")), Event.fileClose (f1 ++ ".diff")])
      refine ⟨calls2, ?_⟩
      simp only [List.cons_append, patchLoop, hp, stringsJoin_diff, h1, if_true]
      exact hc

theorem textLoop_fail (env : Env) (pre post : List (String × EditSet)) (f : String)
    (e : EditSet) (err : String) (hpre : encodingSucceeds env false pre = true)
    (hfail : env.ApplyToFile e f = Except.error err)
    (changes : List Value) (calls : List Event) :
    ∃ calls2, textLoop env (pre ++ (f, e) :: post) changes calls =
      ⟨calls2, Except.ok (Except.error err)⟩ := by
  induction pre generalizing changes calls with
  | nil => exact ⟨calls ++ [Event.applyToFile e f], by simp [textLoop, hfail]⟩
  | cons fe rest ih =>
    obtain ⟨f1, e1⟩ := fe
    simp only [encodingSucceeds, List.all_cons, Bool.and_eq_true] at hpre
    obtain ⟨h1, h2⟩ := hpre
    have h2b : encodingSucceeds env false rest = true := by simpa [encodingSucceeds] using h2
    cases hp : env.ApplyToFile e1 f1 with
    | error err1 => simp [hp] at h1
    | ok content =>
      obtain ⟨calls2, hc⟩ := ih h2b
        (changes ++ [Value.map [("filename", Value.str f1), ("content", Value.str content)]])
        (calls ++ [Event.applyToFile e1 f1])
      refine ⟨calls2, ?_⟩
      simp only [List.cons_append, textLoop, hp]
      exact hc

theorem encodeChanges_of_loop (env : Env) (input : Input) (refac : Refactoring)
    (result : Result) (logs : List Value) (calls calls2 : List Event) (patch : Bool)
    (changes : List Value) (hmode : patchMode input = Except.ok patch)
    (hloop : (if patch = true then patchLoop env result.Edits [] calls
      else textLoop env result.Edits [] calls) = ⟨calls2, Except.ok (Except.ok changes)⟩) :
    encodeChanges env input refac result logs calls =
      ⟨calls2, Except.ok ([("reply", Value.str "OK"), ("description", Value.str refac.Name),
        ("log", Value.list logs), ("files", Value.list changes)] ++
        (if result.FSChanges.isEmpty then []
         else [("fsChanges", Value.list (result.FSChanges.map fsChangeSwitch))]), none)⟩ := by
  unfold encodeChanges
  simp only [hmode, hloop]
  cases hfs : result.FSChanges with
  | nil => simp
  | cons c cs =>
    have := fsLoop_eq (c :: cs)
    simp only [List.length_cons] at this
    simp [this]

theorem encodeChanges_of_loop_error (env : Env) (input : Input) (refac : Refactoring)
    (result : Result) (logs : List Value) (calls calls2 : List Event) (patch : Bool)
    (err : String) (hmode : patchMode input = Except.ok patch)
    (hloop : (if patch = true then patchLoop env result.Edits [] calls
      else textLoop env result.Edits [] calls) = ⟨calls2, Except.ok (Except.error err)⟩) :
    encodeChanges env input refac result logs calls =
      ⟨calls2, Except.ok ([("reply", Value.str "Error"), ("message", Value.str err)],
        some err)⟩ := by
  unfold encodeChanges
  simp only [hmode, hloop]

theorem encodingSucceeds_create (env : Env) (edits : List (String × EditSet))
    (h : encodingSucceeds env true edits = true) :
    ∀ fe ∈ edits, env.osCreate (fe.1 ++ ".diff") = true := by
  intro fe hfe
  simp only [encodingSucceeds, if_true, List.all_eq_true] at h
  have h1 := h fe hfe
  cases hp : env.CreatePatchForFile fe.2 fe.1 with
  | error err => simp [hp] at h1
  | ok p => simpa [hp] using h1

/-! ## The encoding of the edits -/

/-- C11. Patch mode is selected when `mode` is absent or equals `patch`.
Then, for a request that passes validation and reaches the engine, with no
FATAL log entry and every diff constructed and every diff file created, `Run`
returns the reply `OK` with a nil error, whose `description` is the
refactoring's name and whose `files` has one entry per edit, in the order of
the edits, each `filename: f, patchFile: f.diff`; and for each edit the
file `f.diff` has been created by `os.Create`. -/
theorem patch_mode_files (env : Env) (state : State) (input : Input)
    (ts : TextSelection) (shortName : String) (args : List Value) (refac : Refactoring)
    (hv : Validate env state input = Except.ok (true, none))
    (hts : textSelectionOf env state input = Except.ok ts)
    (hname : input.lookup "transformation" = some (Value.str shortName))
    (hargs : input.lookup "arguments" = some (Value.list args))
    (hrefac : GetRefactoring env shortName = some refac)
    (hnofatal : ∀ e ∈ (refac.Run ⟨state.Filesystem, none, ts, args⟩).Log,
      e.Severity ≠ Severity.FATAL_ERROR)
    (hmode : input.lookup "mode" = none ∨ input.lookup "mode" = some (Value.str "patch"))
    (henc : encodingSucceeds env true
      (refac.Run ⟨state.Filesystem, none, ts, args⟩).Edits = true) :
    ∃ calls, Run env state input =
        ⟨[Event.getRefactoring shortName,
            Event.engineRun shortName ⟨state.Filesystem, none, ts, args⟩] ++ calls,
          Except.ok ([("reply", Value.str "OK"), ("description", Value.str refac.Name),
            ("log", Value.list
              (logLoop (refac.Run ⟨state.Filesystem, none, ts, args⟩).Log [] false).1),
            ("files", Value.list
              ((refac.Run ⟨state.Filesystem, none, ts, args⟩).Edits.map (fun fe =>
                Value.map [("filename", Value.str fe.1),
                  ("patchFile", Value.str (fe.1 ++ ".diff"))])))] ++
            (if (refac.Run ⟨state.Filesystem, none, ts, args⟩).FSChanges.isEmpty then []
             else [("fsChanges", Value.list
               ((refac.Run ⟨state.Filesystem, none, ts, args⟩).FSChanges.map
                 fsChangeSwitch))]), none)⟩ ∧
      ∀ fe ∈ (refac.Run ⟨state.Filesystem, none, ts, args⟩).Edits,
        Event.osCreate (fe.1 ++ ".diff") ∈ calls ∧ env.osCreate (fe.1 ++ ".diff") = true := by
  have hpatch : patchMode input = Except.ok true := by
    rcases hmode with h | h
    · simp [patchMode, h]
    · simp [patchMode, h, assertString]
  obtain ⟨calls2, hloop, hmem, _⟩ := patchLoop_success_calls env
    (refac.Run ⟨state.Filesystem, none, ts, args⟩).Edits henc []
    [Event.getRefactoring shortName,
      Event.engineRun shortName ⟨state.Filesystem, none, ts, args⟩]
  refine ⟨calls2, ?_, fun fe hfe => ⟨hmem fe hfe, encodingSucceeds_create env _ henc fe hfe⟩⟩
  rw [Run_of_valid env state input ts shortName args refac hv hts hname hargs hrefac,
    logLoop_flag_false _ hnofatal]
  simp only [Bool.false_eq_true, if_false]
  rw [encodeChanges_of_loop env input refac _ _ _ _ true _ hpatch
    (by simpa using hloop)]
  simp

theorem patch_mode_files_witness :
    ∃ calls, Run (exEnv exInfoResult true) exState (exRequest "rename" []) =
        ⟨[Event.getRefactoring "rename", Event.engineRun "rename" exConfig] ++ calls,
          Except.ok ([("reply", Value.str "OK"), ("description", Value.str "Rename"),
            ("log", Value.list [logRecord "" "renamed"]),
            ("files", Value.list [Value.map [("filename", Value.str "foo.go"),
              ("patchFile", Value.str "foo.go.diff")]])], none)⟩ ∧
      Event.osCreate "foo.go.diff" ∈ calls := by
  obtain ⟨calls, h1, h2⟩ :=
    patch_mode_files (exEnv exInfoResult true) exState (exRequest "rename" [])
      exTextSelection "rename" [] (exRefactoring exInfoResult) rfl rfl rfl rfl rfl
      (by simp [exRefactoring, exInfoResult]) (Or.inl rfl) rfl
  exact ⟨calls, h1, (h2 ("foo.go", 7) (by simp [exRefactoring, exInfoResult])).1⟩

/-- C12. Text mode is selected when `mode` is present, passes validation and
is not `patch`. Then, for a request that reaches the engine, with no FATAL log
entry and every edit applied, `Run` returns the reply `OK` with a nil error
whose `files` has one entry per edit, in the order of the edits, each
`filename: f, content: c` with `c` the text `text.ApplyToFile` gives for `f`;
the only calls after the engine's run are those of `text.ApplyToFile`, so no
diff file is created. -/
theorem text_mode_files (env : Env) (state : State) (input : Input)
    (ts : TextSelection) (shortName : String) (args : List Value) (refac : Refactoring)
    (m : String)
    (hv : Validate env state input = Except.ok (true, none))
    (hts : textSelectionOf env state input = Except.ok ts)
    (hname : input.lookup "transformation" = some (Value.str shortName))
    (hargs : input.lookup "arguments" = some (Value.list args))
    (hrefac : GetRefactoring env shortName = some refac)
    (hnofatal : ∀ e ∈ (refac.Run ⟨state.Filesystem, none, ts, args⟩).Log,
      e.Severity ≠ Severity.FATAL_ERROR)
    (hmode : input.lookup "mode" = some (Value.str m)) (hm : m ≠ "patch")
    (henc : encodingSucceeds env false
      (refac.Run ⟨state.Filesystem, none, ts, args⟩).Edits = true) :
    ∃ files, Run env state input =
        ⟨[Event.getRefactoring shortName,
            Event.engineRun shortName ⟨state.Filesystem, none, ts, args⟩] ++
            (refac.Run ⟨state.Filesystem, none, ts, args⟩).Edits.map
              (fun fe => Event.applyToFile fe.2 fe.1),
          Except.ok ([("reply", Value.str "OK"), ("description", Value.str refac.Name),
            ("log", Value.list
              (logLoop (refac.Run ⟨state.Filesystem, none, ts, args⟩).Log [] false).1),
            ("files", Value.list files)] ++
            (if (refac.Run ⟨state.Filesystem, none, ts, args⟩).FSChanges.isEmpty then []
             else [("fsChanges", Value.list
               ((refac.Run ⟨state.Filesystem, none, ts, args⟩).FSChanges.map
                 fsChangeSwitch))]), none)⟩ ∧
      List.Forall₂ (fun fe r => ∃ c, env.ApplyToFile fe.2 fe.1 = Except.ok c ∧
          r = Value.map [("filename", Value.str fe.1), ("content", Value.str c)])
        (refac.Run ⟨state.Filesystem, none, ts, args⟩).Edits files := by
  have hpatch : patchMode input = Except.ok false := by
    simp [patchMode, hmode, assertString, hm]
  obtain ⟨more, hloop, hall⟩ := textLoop_success_exact env
    (refac.Run ⟨state.Filesystem, none, ts, args⟩).Edits henc []
    [Event.getRefactoring shortName,
      Event.engineRun shortName ⟨state.Filesystem, none, ts, args⟩]
  refine ⟨more, ?_, hall⟩
  rw [Run_of_valid env state input ts shortName args refac hv hts hname hargs hrefac,
    logLoop_flag_false _ hnofatal]
  simp only [Bool.false_eq_true, if_false]
  rw [encodeChanges_of_loop env input refac _ _ _ _ false _ hpatch
    (by simpa using hloop)]
  rfl

theorem text_mode_files_witness :
    ∃ files, Run (exEnv exInfoResult true) exState
          (exRequest "rename" [("mode", Value.str "text")]) =
        ⟨[Event.getRefactoring "rename", Event.engineRun "rename" exConfig,
            Event.applyToFile 7 "foo.go"],
          Except.ok ([("reply", Value.str "OK"), ("description", Value.str "Rename"),
            ("log", Value.list [logRecord "" "renamed"]),
            ("files", Value.list files)], none)⟩ ∧
      List.Forall₂ (fun fe r => ∃ c, (exEnv exInfoResult true).ApplyToFile fe.2 fe.1
            = Except.ok c ∧
          r = Value.map [("filename", Value.str fe.1), ("content", Value.str c)])
        [("foo.go", 7)] files :=
  text_mode_files (exEnv exInfoResult true) exState
    (exRequest "rename" [("mode", Value.str "text")])
    exTextSelection "rename" [] (exRefactoring exInfoResult) "text" rfl rfl rfl rfl rfl
    (by simp [exRefactoring, exInfoResult]) rfl (by decide) rfl

/-- C13. Fail-fast encoding. For a request that passes validation and
reaches the engine, with no FATAL log entry: when the first call that fails in
the loop over the edits is `text.CreatePatchForFile` (patch mode) or
`text.ApplyToFile` (text mode), with error text `err`, `Run` returns that
error together with the reply whose only keys are `reply` (= `Error`) and
`message` (= `err`), so nothing of the files encoded before is returned. -/
theorem encoding_failure_fail_fast (env : Env) (state : State) (input : Input)
    (ts : TextSelection) (shortName : String) (args : List Value) (refac : Refactoring)
    (pre post : List (String × EditSet)) (f : String) (e : EditSet) (err : String)
    (hv : Validate env state input = Except.ok (true, none))
    (hts : textSelectionOf env state input = Except.ok ts)
    (hname : input.lookup "transformation" = some (Value.str shortName))
    (hargs : input.lookup "arguments" = some (Value.list args))
    (hrefac : GetRefactoring env shortName = some refac)
    (hnofatal : ∀ e ∈ (refac.Run ⟨state.Filesystem, none, ts, args⟩).Log,
      e.Severity ≠ Severity.FATAL_ERROR)
    (hedits : (refac.Run ⟨state.Filesystem, none, ts, args⟩).Edits = pre ++ (f, e) :: post) :
    (patchMode input = Except.ok true → encodingSucceeds env true pre = true →
      env.CreatePatchForFile e f = Except.error err →
      (Run env state input).result =
        Except.ok ([("reply", Value.str "Error"), ("message", Value.str err)], some err)) ∧
    (patchMode input = Except.ok false → encodingSucceeds env false pre = true →
      env.ApplyToFile e f = Except.error err →
      (Run env state input).result =
        Except.ok ([("reply", Value.str "Error"), ("message", Value.str err)], some err)) := by
  rw [Run_of_valid env state input ts shortName args refac hv hts hname hargs hrefac,
    logLoop_flag_false _ hnofatal]
  simp only [Bool.false_eq_true, if_false]
  constructor
  · intro hpatch hpre hfail
    obtain ⟨calls2, hloop⟩ := patchLoop_fail env pre post f e err hpre hfail []
      [Event.getRefactoring shortName,
        Event.engineRun shortName ⟨state.Filesystem, none, ts, args⟩]
    rw [← hedits] at hloop
    rw [encodeChanges_of_loop_error env input refac _ _ _ _ true err hpatch
      (by simpa using hloop)]
  · intro hpatch hpre hfail
    obtain ⟨calls2, hloop⟩ := textLoop_fail env pre post f e err hpre hfail []
      [Event.getRefactoring shortName,
        Event.engineRun shortName ⟨state.Filesystem, none, ts, args⟩]
    rw [← hedits] at hloop
    rw [encodeChanges_of_loop_error env input refac _ _ _ _ false err hpatch
      (by simpa using hloop)]

theorem encoding_failure_fail_fast_witness :
    (Run (exEnvFailing exTwoEditsResult) exState (exRequest "rename" [])).result =
      Except.ok ([("reply", Value.str "Error"), ("message", Value.str "cannot read bad.go")],
        some "cannot read bad.go") ∧
    (Run (exEnvFailing exTwoEditsResult) exState
        (exRequest "rename" [("mode", Value.str "text")])).result =
      Except.ok ([("reply", Value.str "Error"), ("message", Value.str "cannot read bad.go")],
        some "cannot read bad.go") :=
  ⟨(encoding_failure_fail_fast (exEnvFailing exTwoEditsResult) exState
      (exRequest "rename" []) exTextSelection "rename" [] (exRefactoring exTwoEditsResult)
      [("foo.go", 7)] [] "bad.go" 8 "cannot read bad.go" rfl rfl rfl rfl rfl
      (by simp [exRefactoring, exTwoEditsResult]) rfl).1 rfl rfl rfl,
   (encoding_failure_fail_fast (exEnvFailing exTwoEditsResult) exState
      (exRequest "rename" [("mode", Value.str "text")]) exTextSelection "rename" []
      (exRefactoring exTwoEditsResult)
      [("foo.go", 7)] [] "bad.go" 8 "cannot read bad.go" rfl rfl rfl rfl rfl
      (by simp [exRefactoring, exTwoEditsResult]) rfl).2 rfl rfl rfl⟩

/-- C14. A failing `os.Create` does not give an `Error` reply: the error of
`os.Create` is not tested, the nil file is passed to `Patch.Write`, and
`diffFile.Name()` dereferences it, so `Run` panics after the calls shown. -/
theorem diff_file_creation_failure_panics :
    Run (exEnv exEditResult false) exState (exRequest "rename" []) =
      ⟨[Event.getRefactoring "rename", Event.engineRun "rename" exConfig,
          Event.createPatchForFile 7 "foo.go", Event.osCreate "foo.go.diff",
          Event.patchWrite 7 "foo.go" none],
        Except.error Panic.nilDereference⟩ :=
  rfl

/-! ## The shape of the outcome -/

theorem Validate_result (env : Env) (state : State) (input : Input)
    (r : Bool × Option String) (h : Validate env state input = Except.ok r) :
    r = (true, none) ∨ ∃ e, r = (false, some e) := by
  unfold Validate at h
  split at h
  · exact Or.inr ⟨_, (Except.ok.inj h).symm⟩
  · split at h
    · simp at h
    · split at h
      · exact Or.inr ⟨_, (Except.ok.inj h).symm⟩
      · split at h
        · simp at h
        · exact Or.inr ⟨_, (Except.ok.inj h).symm⟩
        · split at h
          · simp at h
          · exact Or.inr ⟨_, (Except.ok.inj h).symm⟩
          · exact Or.inl (Except.ok.inj h).symm

/-- Every outcome of `Run` is a panic, an `Error` reply paired with its error,
or an `OK` reply with a nil error, for the refactoring the request names. -/
theorem Run_shape (env : Env) (state : State) (input : Input) :
    (∃ p, (Run env state input).result = Except.error p) ∨
    (∃ msg, (Run env state input).result =
      Except.ok ([("reply", Value.str "Error"), ("message", Value.str msg)], some msg)) ∨
    (∃ shortName refac logs rest,
      input.lookup "transformation" = some (Value.str shortName) ∧
      GetRefactoring env shortName = some refac ∧
      (Run env state input).result =
        Except.ok ([("reply", Value.str "OK"), ("description", Value.str refac.Name),
          ("log", Value.list logs)] ++ rest, none) ∧
      (rest = [] ∨ (∃ changes, rest = [("files", Value.list changes)]) ∨
        ∃ changes recs, rest = [("files", Value.list changes),
          ("fsChanges", Value.list recs)])) := by
  cases hV : Validate env state input with
  | error p => exact Or.inl ⟨p, by simp [Run, hV]⟩
  | ok r =>
    rcases Validate_result env state input r hV with hr | ⟨e, hr⟩
    · subst hr
      cases hts : textSelectionOf env state input with
      | error p => exact Or.inl ⟨p, by simp [Run, hV, hts]⟩
      | ok ts =>
        cases hn : assertString (input.lookup "transformation") with
        | error p => exact Or.inl ⟨p, by simp [Run, hV, hts, hn]⟩
        | ok shortName =>
          have hname := assertString_ok _ _ hn
          cases ha : assertSlice (input.lookup "arguments") with
          | error p => exact Or.inl ⟨p, by simp [Run, hV, hts, hn, ha]⟩
          | ok args =>
            cases hg : GetRefactoring env shortName with
            | none => exact Or.inl ⟨Panic.nilDereference, by simp [Run, hV, hts, hn, ha, hg]⟩
            | some refac =>
              have hrun : Run env state input =
                  if (logLoop (refac.Run ⟨state.Filesystem, none, ts, args⟩).Log [] false).2
                  then
                    ⟨[Event.getRefactoring shortName,
                        Event.engineRun shortName ⟨state.Filesystem, none, ts, args⟩],
                      Except.ok ([("reply", Value.str "OK"),
                        ("description", Value.str refac.Name),
                        ("log", Value.list (logLoop
                          (refac.Run ⟨state.Filesystem, none, ts, args⟩).Log [] false).1)],
                        none)⟩
                  else
                    encodeChanges env input refac
                      (refac.Run ⟨state.Filesystem, none, ts, args⟩)
                      (logLoop (refac.Run ⟨state.Filesystem, none, ts, args⟩).Log [] false).1
                      [Event.getRefactoring shortName,
                        Event.engineRun shortName ⟨state.Filesystem, none, ts, args⟩] := by
                simp only [Run, hV, hts, hn, ha, hg]
              rw [hrun]
              by_cases hflag :
                  (logLoop (refac.Run ⟨state.Filesystem, none, ts, args⟩).Log [] false).2 = true
              · simp only [hflag, if_true]
                exact Or.inr (Or.inr ⟨shortName, refac, _, [], hname, hg, rfl, Or.inl rfl⟩)
              · simp only [hflag, Bool.false_eq_true, if_false]
                rcases encodeChanges_result env input refac
                  (refac.Run ⟨state.Filesystem, none, ts, args⟩)
                  (logLoop (refac.Run ⟨state.Filesystem, none, ts, args⟩).Log [] false).1
                  [Event.getRefactoring shortName,
                    Event.engineRun shortName ⟨state.Filesystem, none, ts, args⟩]
                  with ⟨p, hp⟩ | ⟨msg, hm⟩ | ⟨changes, hc⟩
                · exact Or.inl ⟨p, hp⟩
                · exact Or.inr (Or.inl ⟨msg, hm⟩)
                · refine Or.inr (Or.inr ⟨shortName, refac,
                    (logLoop (refac.Run ⟨state.Filesystem, none, ts, args⟩).Log [] false).1,
                    [("files", Value.list changes)] ++
                      (if (refac.Run ⟨state.Filesystem, none, ts, args⟩).FSChanges.isEmpty
                        then []
                        else [("fsChanges", Value.list
                          ((refac.Run ⟨state.Filesystem, none, ts, args⟩).FSChanges.map
                            fsChangeSwitch))]), hname, hg, ?_, ?_⟩)
                  · rw [hc]
                    rfl
                  · cases (refac.Run ⟨state.Filesystem, none, ts, args⟩).FSChanges with
                    | nil => exact Or.inr (Or.inl ⟨changes, rfl⟩)
                    | cons c cs => exact Or.inr (Or.inr ⟨changes, _, rfl⟩)
    · subst hr
      exact Or.inr (Or.inl ⟨e, by simp [Run, hV]⟩)

/-- C15. The reply shapes are exhaustive: whenever `Run` returns a reply, its
keys are `reply, message` with `reply = Error`, or they are
`reply, description, log`, possibly followed by `files`, possibly followed by
`fsChanges`, with `reply = OK` and `description` the name of the refactoring
the request names. -/
theorem reply_shapes_exhaustive (env : Env) (state : State) (input : Input)
    (reply : Reply) (err : Option String)
    (hret : (Run env state input).result = Except.ok (reply, err)) :
    (reply.map Prod.fst = ["reply", "message"] ∧
      reply.lookup "reply" = some (Value.str "Error")) ∨
    (∃ shortName refac,
      input.lookup "transformation" = some (Value.str shortName) ∧
      GetRefactoring env shortName = some refac ∧
      reply.lookup "reply" = some (Value.str "OK") ∧
      reply.lookup "description" = some (Value.str refac.Name) ∧
      (reply.map Prod.fst = ["reply", "description", "log"] ∨
       reply.map Prod.fst = ["reply", "description", "log", "files"] ∨
       reply.map Prod.fst = ["reply", "description", "log", "files", "fsChanges"])) := by
  rcases Run_shape env state input with ⟨p, hp⟩ | ⟨msg, hm⟩ | ⟨n, refac, logs, rest, hn, hg, hr, hrest⟩
  · rw [hp] at hret
    simp at hret
  · rw [hm] at hret
    simp only [Except.ok.injEq, Prod.mk.injEq] at hret
    obtain ⟨h1, _⟩ := hret
    subst h1
    exact Or.inl ⟨rfl, by simp [List.lookup]⟩
  · rw [hr] at hret
    simp only [Except.ok.injEq, Prod.mk.injEq] at hret
    obtain ⟨h1, _⟩ := hret
    subst h1
    refine Or.inr ⟨n, refac, hn, hg, by simp [List.lookup], by simp [List.lookup], ?_⟩
    rcases hrest with h | ⟨c, h⟩ | ⟨c, r, h⟩
    · subst h
      exact Or.inl rfl
    · subst h
      exact Or.inr (Or.inl rfl)
    · subst h
      exact Or.inr (Or.inr rfl)

theorem reply_shapes_exhaustive_witness :
    (exFatalReply.map Prod.fst = ["reply", "message"] ∧
      exFatalReply.lookup "reply" = some (Value.str "Error")) ∨
    (∃ shortName refac,
      (exRequest "rename" []).lookup "transformation" = some (Value.str shortName) ∧
      GetRefactoring (exEnv exFatalResult true) shortName = some refac ∧
      exFatalReply.lookup "reply" = some (Value.str "OK") ∧
      exFatalReply.lookup "description" = some (Value.str refac.Name) ∧
      (exFatalReply.map Prod.fst = ["reply", "description", "log"] ∨
       exFatalReply.map Prod.fst = ["reply", "description", "log", "files"] ∨
       exFatalReply.map Prod.fst = ["reply", "description", "log", "files", "fsChanges"])) :=
  reply_shapes_exhaustive (exEnv exFatalResult true) exState (exRequest "rename" [])
    exFatalReply none rfl

/-- C16. Whenever `Run` returns, the returned error is non-nil if and only
if the `reply` field of the reply is `Error`; then `message` is the text of
the error; and a reply `OK` is paired with a nil error. -/
theorem error_reply_iff_error (env : Env) (state : State) (input : Input)
    (reply : Reply) (err : Option String)
    (hret : (Run env state input).result = Except.ok (reply, err)) :
    (err ≠ none ↔ reply.lookup "reply" = some (Value.str "Error")) ∧
    (∀ msg, err = some msg → reply.lookup "message" = some (Value.str msg)) ∧
    (reply.lookup "reply" = some (Value.str "OK") → err = none) := by
  rcases Run_shape env state input with ⟨p, hp⟩ | ⟨msg, hm⟩ | ⟨n, refac, logs, rest, _, _, hr, _⟩
  · rw [hp] at hret
    simp at hret
  · rw [hm] at hret
    simp only [Except.ok.injEq, Prod.mk.injEq] at hret
    obtain ⟨h1, h2⟩ := hret
    subst h1
    subst h2
    simp [List.lookup]
  · rw [hr] at hret
    simp only [Except.ok.injEq, Prod.mk.injEq] at hret
    obtain ⟨h1, h2⟩ := hret
    subst h1
    subst h2
    simp [List.lookup]

theorem error_reply_iff_error_witness :
    ((some "State of 2 (file system configured) is required" : Option String) ≠ none ↔
      exStateErrorReply.lookup "reply" = some (Value.str "Error")) ∧
    (∀ msg, some "State of 2 (file system configured) is required" = some msg →
      exStateErrorReply.lookup "message" = some (Value.str msg)) ∧
    (exStateErrorReply.lookup "reply" = some (Value.str "OK") →
      (some "State of 2 (file system configured) is required" : Option String) = none) :=
  error_reply_iff_error (exEnv exEditResult true) exStateEarly (exRequest "rename" [])
    exStateErrorReply (some "State of 2 (file system configured) is required") rfl

/-! ## What `Validate` and `Run` read of the request -/

theorem lookup_append_extra (k : String) (l extra : List (String × Value))
    (h : ∀ kv ∈ extra, k ≠ kv.1) : (l ++ extra).lookup k = l.lookup k := by
  have hex : extra.lookup k = none := by
    induction extra with
    | nil => rfl
    | cons kv rest ih =>
      have h1 : (k == kv.1) = false := by simpa using h kv (List.mem_cons_self _ _)
      have h2 := ih (fun kv2 hkv2 => h kv2 (List.mem_cons_of_mem _ hkv2))
      obtain ⟨k1, v1⟩ := kv
      simp only [List.lookup, h1, h2]
  induction l with
  | nil => simpa using hex
  | cons kv rest ih =>
    obtain ⟨k1, v1⟩ := kv
    simp only [List.cons_append, List.lookup]
    cases (k == k1)
    · exact ih
    · rfl

/-- C17. `Validate` reads only `transformation`, `limit` and `mode` of the
request: two requests that agree on these three keys (present or absent, and
the value) get the same result in the same session, whatever their
`textselection`, `fileselection` and `arguments` are. -/
theorem Validate_reads_three_keys (env : Env) (state : State) (input1 input2 : Input)
    (ht : input1.lookup "transformation" = input2.lookup "transformation")
    (hl : input1.lookup "limit" = input2.lookup "limit")
    (hm : input1.lookup "mode" = input2.lookup "mode") :
    Validate env state input1 = Validate env state input2 := by
  have hloop : ∀ names valid,
      transformationLoop input1 names valid = transformationLoop input2 names valid := by
    intro names
    induction names with
    | nil => intro valid; rfl
    | cons n rest ih =>
      intro valid
      simp only [transformationLoop, ht, ih]
  have hlimit : limitInvalid input1 = limitInvalid input2 := by
    simp only [limitInvalid, hl]
  have hmode : modeInvalid input1 = modeInvalid input2 := by
    simp only [modeInvalid, hm]
  simp only [Validate, hloop, hlimit, hmode]

theorem Validate_reads_three_keys_witness :
    Validate (exEnv exEditResult true) exState (exRequest "rename" []) =
      Validate (exEnv exEditResult true) exState
        [("transformation", Value.str "rename"), ("textselection", Value.str "foo.go:1"),
         ("fileselection", Value.list [Value.str "foo.go"])] :=
  Validate_reads_three_keys (exEnv exEditResult true) exState (exRequest "rename" [])
    [("transformation", Value.str "rename"), ("textselection", Value.str "foo.go:1"),
     ("fileselection", Value.list [Value.str "foo.go"])] rfl rfl rfl

/-- C18. A request with `limit = 0` is not rejected: the test is
`limit.(int) < 0`, so in a ready session with a registered transformation
`Validate` returns `(true, nil)` for the limit 0, and `Run` goes on to the
engine. -/
theorem limit_zero_accepted :
    Validate (exEnv exEditResult true) exState
        (exRequest "rename" [("limit", Value.int 0)]) = Except.ok (true, none) ∧
    (Run (exEnv exEditResult true) exState
        (exRequest "rename" [("limit", Value.int 0)])).calls =
      [Event.getRefactoring "rename", Event.engineRun "rename" exConfig,
        Event.createPatchForFile 7 "foo.go", Event.osCreate "foo.go.diff",
        Event.patchWrite 7 "foo.go" (some "foo.go.diff"), Event.fileClose "foo.go.diff"] :=
  ⟨rfl, rfl⟩

/-- C19. Whenever `Validate` returns, its result is `(true, nil)` or
`(false, err)` with `err` non-nil; so when the verdict is false, `Run`
returns the `Error` reply with the text of `err` and does not panic on
`err.Error()`. -/
theorem Validate_failure_has_error (env : Env) (state : State) (input : Input)
    (r : Bool × Option String) (h : Validate env state input = Except.ok r) :
    (r = (true, none) ∨ ∃ e, r = (false, some e)) ∧
    (r.1 = false → ∃ e, r.2 = some e ∧
      Run env state input =
        ⟨[], Except.ok ([("reply", Value.str "Error"), ("message", Value.str e)], some e)⟩) := by
  refine ⟨Validate_result env state input r h, ?_⟩
  intro hfalse
  rcases Validate_result env state input r h with hr | ⟨e, hr⟩
  · subst hr
    simp at hfalse
  · subst hr
    exact ⟨e, rfl, Run_of_invalid env state input e h⟩

theorem Validate_failure_has_error_witness :
    ∃ e, (some "Transformation given is not a valid refactoring name" : Option String)
        = some e ∧
      Run (exEnv exEditResult true) exState (exRequest "extract" []) =
        ⟨[], Except.ok ([("reply", Value.str "Error"), ("message", Value.str e)], some e)⟩ :=
  (Validate_failure_has_error (exEnv exEditResult true) exState (exRequest "extract" [])
    (false, some "Transformation given is not a valid refactoring name") rfl).2 rfl

/-- C20. The `limit` and the `fileselection` have no effect on what `Run`
does: two requests that pass validation in the same session and agree on
every key other than `limit` and `fileselection` give the same outcome, that
is the same calls, among them the run of the engine with the same `Config`,
and the same reply and error. -/
theorem limit_and_fileselection_unused (env : Env) (state : State) (input1 input2 : Input)
    (hv1 : Validate env state input1 = Except.ok (true, none))
    (hv2 : Validate env state input2 = Except.ok (true, none))
    (hsame : ∀ k, k ≠ "limit" → k ≠ "fileselection" →
      input1.lookup k = input2.lookup k) :
    Run env state input1 = Run env state input2 := by
  have ht := hsame "transformation" (by decide) (by decide)
  have hs := hsame "textselection" (by decide) (by decide)
  have ha := hsame "arguments" (by decide) (by decide)
  have hm := hsame "mode" (by decide) (by decide)
  simp only [Run, hv1, hv2, textSelectionOf, encodeChanges, patchMode, ht, hs, ha, hm]

theorem limit_and_fileselection_unused_witness :
    Run (exEnv exInfoResult true) exState
        (exRequest "rename" [("limit", Value.int 3),
          ("fileselection", Value.list [Value.str "foo.go"])]) =
      Run (exEnv exInfoResult true) exState (exRequest "rename" []) :=
  limit_and_fileselection_unused (exEnv exInfoResult true) exState
    (exRequest "rename" [("limit", Value.int 3),
      ("fileselection", Value.list [Value.str "foo.go"])])
    (exRequest "rename" []) rfl rfl
    (fun k h1 h2 => by
      have h := lookup_append_extra k (exRequest "rename" [])
        [("limit", Value.int 3), ("fileselection", Value.list [Value.str "foo.go"])]
        (by
          intro kv hkv
          simp only [List.mem_cons, List.mem_singleton, List.not_mem_nil, or_false] at hkv
          rcases hkv with hkv | hkv
          · rw [hkv]; exact h1
          · rw [hkv]; exact h2)
      simpa [exRequest] using h)

end protocol
